import Mathlib

/-!
# jpeg-corrupter: the virtual disk and its corruption engine

A shallow embedding of `main.go`: `Entry` and `Entry.Overlap`, the sampler
(`uniform`, `geometric`), and the `VirtualDisk` methods `Corrupt`, `GetFile`,
`Reset` and `AddFile`.

Modelling conventions.
* Go `int` values are `Int`; no arithmetic here can leave the 64-bit range,
  since every sum is bounded by a buffer length.
* A byte is a `Nat`; `byte(x)` is `x % 256`.
* `bytes.Buffer` is the list of its unread bytes (nothing in the program ever
  reads from the buffer of the disk, so `Len()` is the length of the list and
  `Bytes()` is the list itself).
* A finite non-negative `float64` value is the rational it denotes, and every
  `float64` operation whose exact result need not be a `float64` is followed
  by `roundF64`, rounding to nearest with ties to even over the 53-bit
  significands and the subnormal floor `2^-1074`. `math.Pow(2, b)` overflows to
  `+Inf` from `b = 1024` on, where the quotient in `uniform` is `0`. No value
  here reaches `2^1024`, so rounding never overflows.
* A slice of the buffer may reach past the length of the buffer, up to its
  capacity; the bytes of the backing array between length and capacity are
  passed to `GetFile` as `slack`.
* The global random source is a tape (`List Nat`) of raw draws, consumed from
  the front in program order; a run that asks for more draws than the tape
  holds ends in `Fault.starved`.
* A Go run-time panic (index or slice bounds out of range) is `Fault.outOfRange`.
-/

namespace JpegCorrupter

/-- How a run can fail to return. -/
inductive Fault where
  | starved
  | outOfRange
  deriving DecidableEq, Repr

/-- An item in the virtual disk: `[Head, Tail)`. -/
structure Entry where
  Head : Int
  Tail : Int
  deriving DecidableEq, Repr

/-- The method `func (dd *Entry) Overlap(other Entry) bool`. -/
def Entry.Overlap (dd other : Entry) : Bool :=
  (decide (dd.Head ≥ other.Head) && decide (dd.Head < other.Tail)) ||
    (decide (dd.Tail > other.Head) && decide (dd.Tail ≤ other.Tail))

/-- The struct `VirtualDisk`. -/
structure VirtualDisk where
  Entries : List Entry
  Buffer : List Nat
  deriving DecidableEq, Repr

/-- The constructor `NewVirtualDisk`. -/
def NewVirtualDisk : VirtualDisk :=
  { Entries := [], Buffer := [] }

/-- The tape of raw random draws still to be consumed. -/
abbrev Tape := List Nat

/-- The call `rand.Uint64()`: the next draw, as a 64-bit value. -/
def randUint64 : Tape → Except Fault (Nat × Tape)
  | [] => .error .starved
  | x :: rest => .ok (x % 2 ^ 64, rest)

/-- The call `rand.Intn(n)`: the next draw, reduced to `[0, n)`. -/
def randIntn (n : Nat) : Tape → Except Fault (Nat × Tape)
  | [] => .error .starved
  | x :: rest => .ok (x % n, rest)

/-- The loop `for rand.Uint64()%2 == 0 { b++ }` of `geometric`, entered with
the current value of `b`; each test takes the next draw as a 64-bit value. -/
def geometricLoop : Nat → Tape → Except Fault (Nat × Tape)
  | _, [] => .error .starved
  | b, x :: rest =>
    if (x % 2 ^ 64) % 2 = 0 then geometricLoop (b + 1) rest else .ok (b, rest)

/-- The function `geometric`: `b := 1`, the loop, `return float64(b)`. -/
def geometric (tape : Tape) : Except Fault (Nat × Tape) :=
  geometricLoop 1 tape

/-- The rational `2^e` for an integer exponent `e`. -/
def pow2 (e : Int) : ℚ :=
  if 0 ≤ e then ((2 ^ e.toNat : Nat) : ℚ) else 1 / ((2 ^ (-e).toNat : Nat) : ℚ)

/-- The spacing of the `float64` values around `x > 0`: `2^(e-52)` where `2^e`
is the power of two at or below `x`, and `2^-1074` throughout the subnormal
range below `2^-1022`. -/
def quantum (x : ℚ) : ℚ :=
  pow2 (max (Int.log 2 x) (-1022) - 52)

/-- The integer nearest to `z`, the even one of the two when `z` lies half-way. -/
def roundHalfEven (z : ℚ) : Int :=
  let f : Int := ⌊z⌋
  if z - (f : ℚ) < 1 / 2 then f
  else if 1 / 2 < z - (f : ℚ) then f + 1
  else if f % 2 = 0 then f else f + 1

/-- The `float64` result of an operation whose exact result is `x ≥ 0`: the
multiple of `quantum x` nearest to `x`, ties to even. -/
def roundF64 (x : ℚ) : ℚ :=
  if x ≤ 0 then 0 else (roundHalfEven (x / quantum x) : ℚ) * quantum x

/-- The quotient `x / math.Pow(2, float64(b))`: `math.Pow(2, b)` is `2^b` up to
`b = 1023` and `+Inf` from `b = 1024` on, where the quotient is `0`. -/
def divPow2 (x : ℚ) (b : Nat) : ℚ :=
  if b < 1024 then roundF64 (x / 2 ^ b) else 0

/-- The function `uniform`:
`sig := rand.Uint64() % (1 << 52)` and then
`(1 + float64(sig)/(1<<52)) / math.Pow(2, geometric())`.
The numerator `1 + float64(sig)/(1<<52)` is exact in `float64`, since
`sig < 2^52` (see `uniform_numerator_exact`). -/
def uniform (tape : Tape) : Except Fault (ℚ × Tape) :=
  match randUint64 tape with
  | .error e => .error e
  | .ok (x, t1) =>
    let sig : Nat := x % 2 ^ 52
    match geometric t1 with
    | .error e => .error e
    | .ok (b, t2) => .ok (divPow2 (1 + (sig : ℚ) / 2 ^ 52) b, t2)

/-- The conversion `int(x)` of a float: truncation toward zero. -/
def intOfFloat (x : ℚ) : Int :=
  Int.tdiv x.num (x.den : Int)

/-- The constant `maxCorruptionSize`. -/
def maxCorruptionSize : Int := 32

/-- The slice `jpegSoiEoiMarkers`. -/
def jpegSoiEoiMarkers : List Nat :=
  [0xFF, 0xD8, 0xFF, 0xD9]

/-- The test `bytes.Contains(s, []byte{b})`: a one-byte subslice occurs in `s`
exactly when `b` is an element of `s`. -/
def bytesContains1 (s : List Nat) (b : Nat) : Bool :=
  s.contains b

/-- The indexing `raw[i]`, which panics outside `0 ≤ i < len(raw)`. -/
def indexByte (raw : List Nat) (i : Int) : Except Fault Nat :=
  if i < 0 then .error .outOfRange
  else
    match raw[i.toNat]? with
    | none => .error .outOfRange
    | some b => .ok b

/-- The mutation loop `for i := p; i <= p+n; i += 1 { ... }` of `Corrupt`,
with the number of iterations still to run and the current `i`. -/
def corruptLoop : Nat → Int → List Nat → Tape → Except Fault (List Nat × Tape)
  | 0, _, raw, tape => .ok (raw, tape)
  | k + 1, i, raw, tape =>
    match indexByte raw i with
    | .error e => .error e
    | .ok b =>
      if !bytesContains1 jpegSoiEoiMarkers b then
        match randIntn 256 tape with
        | .error e => .error e
        | .ok (r, t1) => corruptLoop k (i + 1) (raw.set i.toNat (r % 256)) t1
      else corruptLoop k (i + 1) raw tape

/-- The loop `for index, entry := range vd.Entries { ... }` of `Corrupt`, with
the index of the first entry still to visit and the list built so far. -/
def affectedLoop (corruptionArea : Entry) : List Entry → Int → List Int → List Int
  | [], _, acc => acc
  | entry :: rest, index, acc =>
    if corruptionArea.Overlap entry then
      affectedLoop corruptionArea rest (index + 1) (acc ++ [index])
    else affectedLoop corruptionArea rest (index + 1) acc

/-- What a returning `Corrupt` call leaves behind: the returned index list, the
disk, and the rest of the tape. -/
structure CorruptResult where
  indexes : List Int
  disk : VirtualDisk
  tape : Tape
  deriving DecidableEq, Repr

/-- Lines 62-65 of `Corrupt`: from `size`, the offset
`p := int(uniform() * float64(size))` and the length
`n := int(uniform() * float64(min(size-p, maxCorruptionSize)))`, each
conversion to `float64` and each product rounded. -/
def corruptWindow (size : Int) (tape : Tape) : Except Fault (Int × Int × Tape) :=
  match uniform tape with
  | .error e => .error e
  | .ok (u1, t1) =>
    let p : Int := intOfFloat (roundF64 (u1 * roundF64 (size : ℚ)))
    match uniform t1 with
    | .error e => .error e
    | .ok (u2, t2) =>
      let n : Int := intOfFloat
        (roundF64 (u2 * roundF64 ((min (size - p) maxCorruptionSize : Int) : ℚ)))
      .ok (p, n, t2)

/-- Lines 67-100 of `Corrupt`: the early return for `n == 0`, the mutation loop
over `raw := vd.Buffer.Bytes()`, and the scan of the entries. -/
def corruptAt (vd : VirtualDisk) (p n : Int) (tape : Tape) : Except Fault CorruptResult :=
  if n = 0 then .ok { indexes := [], disk := vd, tape := tape }
  else
    match corruptLoop (n + 1).toNat p vd.Buffer tape with
    | .error e => .error e
    | .ok (raw, t3) =>
      let corruptionArea : Entry := { Head := p, Tail := p + n }
      .ok { indexes := affectedLoop corruptionArea vd.Entries 0 [],
            disk := { vd with Buffer := raw },
            tape := t3 }

/-- The method `func (vd *VirtualDisk) Corrupt() []int`: `size := vd.Buffer.Len()`,
the two sampled values, and the rest of the body. -/
def Corrupt (vd : VirtualDisk) (tape : Tape) : Except Fault CorruptResult :=
  let size : Int := vd.Buffer.length
  match corruptWindow size tape with
  | .error e => .error e
  | .ok (p, n, t2) => corruptAt vd p n t2

/-- The slice expression `raw[head:tail]`, which panics unless
`0 ≤ head ≤ tail ≤ cap(raw)`; `slack` holds the bytes of the backing array
between `len(raw)` and `cap(raw)`. -/
def sliceBytes (raw slack : List Nat) (head tail : Int) : Except Fault (List Nat) :=
  if head < 0 ∨ tail < head ∨ ((raw.length + slack.length : Nat) : Int) < tail then
    .error .outOfRange
  else .ok (((raw ++ slack).drop head.toNat).take (tail - head).toNat)

/-- The method `func (vd *VirtualDisk) GetFile(index int) (*bytes.Buffer, *Entry)`.
The pair `(nil, nil)` is `none`; the disk after the call is returned too;
`slack` is what the backing array of the buffer holds past its length. -/
def GetFile (vd : VirtualDisk) (slack : List Nat) (index : Int) :
    Except Fault (Option (List Nat × Entry) × VirtualDisk) :=
  if index ≥ (vd.Entries.length : Int) ∨ index < 0 then .ok (none, vd)
  else
    match vd.Entries[index.toNat]? with
    | none => .error .outOfRange
    | some entry =>
      let raw := vd.Buffer
      let head := entry.Head
      let tail := entry.Tail
      match sliceBytes raw slack head tail with
      | .error e => .error e
      | .ok data => .ok (some (data, entry), vd)

/-- The method `func (vd *VirtualDisk) Reset()`. -/
def Reset (_vd : VirtualDisk) : VirtualDisk :=
  { Buffer := [], Entries := [] }

/-- An `io.Reader` as the sequence of what its `Read` calls deliver: chunks of
bytes, ended by `io.EOF` or by an error. -/
inductive Reader where
  | eof : Reader
  | fail (err : String) : Reader
  | chunk (bs : List Nat) (rest : Reader) : Reader
  deriving DecidableEq, Repr

/-- The call `io.Copy(&vd.Buffer, r)`: the buffer after the copy, the number of
bytes copied and the error (`none` for `nil`). -/
def ioCopy (dst : List Nat) : Reader → List Nat × Int × Option String
  | .eof => (dst, 0, none)
  | .fail err => (dst, 0, some err)
  | .chunk bs rest =>
    match ioCopy (dst ++ bs) rest with
    | (buf, n, err) => (buf, (bs.length : Int) + n, err)

/-- The method `func (vd *VirtualDisk) AddFile(r io.Reader) error`: the disk
after the call and the returned error. -/
def AddFile (vd : VirtualDisk) (r : Reader) : VirtualDisk × Option String :=
  let previousTail : Int := vd.Buffer.length
  match ioCopy vd.Buffer r with
  | (buf, _, some err) => ({ vd with Buffer := buf }, some err)
  | (buf, n, none) =>
    ({ Entries := vd.Entries ++ [{ Head := previousTail, Tail := n + previousTail }],
       Buffer := buf }, none)

/-! ## Vocabulary of the properties -/

/-- All bytes a reader delivers, in order. -/
def Reader.bytes : Reader → List Nat
  | .eof => []
  | .fail _ => []
  | .chunk bs rest => bs ++ rest.bytes

/-- The error a reader ends with (`none` for `io.EOF`). -/
def Reader.err : Reader → Option String
  | .eof => none
  | .fail e => some e
  | .chunk _ rest => rest.err

/-- The entries that appending files with the given contents lays out from
offset `start`. -/
def layout (start : Int) : List (List Nat) → List Entry
  | [] => []
  | c :: cs => { Head := start, Tail := (c.length : Int) + start } ::
      layout ((c.length : Int) + start) cs

/-- The concatenation of the given contents. -/
def concatAll : List (List Nat) → List Nat
  | [] => []
  | c :: cs => c ++ concatAll cs

/-- The symmetric half-open intersection test `a.Head < b.Tail ∧ b.Head < a.Tail`. -/
def Entry.Intersects (a b : Entry) : Bool :=
  decide (a.Head < b.Tail) && decide (b.Head < a.Tail)

/-- A run of `AddFile` calls, one per reader, all of which return `nil`;
`none` as soon as one call returns an error. -/
def addFiles (vd : VirtualDisk) : List Reader → Option VirtualDisk
  | [] => some vd
  | r :: rs =>
    match AddFile vd r with
    | (vd1, none) => addFiles vd1 rs
    | (_, some _) => none



/-- The draws one `uniform` call consumes when the significand draw is `sig`
and the geometric loop sees `zeros` even draws before its first odd one. -/
def drawTape (sig zeros : Nat) : Tape :=
  sig :: (List.replicate zeros 0 ++ [1])

/-- The value `uniform` returns when the significand is `sig` and the geometric
draw is `b`: `(1 + sig/2^52) / 2^b`. -/
def samplerValue (sig b : Nat) : ℚ :=
  (1 + (sig : ℚ) / 2 ^ 52) / 2 ^ b

/-- The number of significands `sig` in `[0, 2^52)` whose sampler value at the
geometric draw `b` satisfies `E`. -/
def eventCount (E : ℚ → Prop) [DecidablePred E] (b : Nat) : Nat :=
  ((Finset.range (2 ^ 52)).filter (fun sig => E (samplerValue sig b))).card

/-- The probability that the geometric draw is `b` and the sampler value
satisfies `E`, when `b` has probability `2^-b` and the significand is uniform
over `[0, 2^52)`: `2^-b * eventCount / 2^52`. -/
def eventMass (E : ℚ → Prop) [DecidablePred E] (b : Nat) : ℚ :=
  (1 / 2 ^ b) * ((eventCount E b : ℚ) / 2 ^ 52)

/-- A finite non-negative `float64` value: `K * 2^s` with `K < 2^53` and
`s ≥ -1074`. -/
def isFloat64 (x : ℚ) : Prop :=
  ∃ (K : Nat) (s : Int), K < 2 ^ 53 ∧ -1074 ≤ s ∧ x = (K : ℚ) * (2 : ℚ) ^ s

/-- The offset `p` and the length `n` that lines 64-65 of `Corrupt` compute from
the buffer length and the two sampler values. -/
def windowOf (size : Int) (u1 u2 : ℚ) : Int × Int :=
  let p : Int := intOfFloat (roundF64 (u1 * roundF64 (size : ℚ)))
  (p, intOfFloat (roundF64 (u2 * roundF64 ((min (size - p) maxCorruptionSize : Int) : ℚ))))

/-- One call on the disk, with what the call is given from outside: the source
of an `AddFile`, the random tape of a `Corrupt`. -/
inductive Call where
  | addFile (r : Reader) : Call
  | reset : Call
  | corrupt (tape : Tape) : Call
  deriving DecidableEq, Repr

/-- The disk after a sequence of calls, each of which returns (an `AddFile`
may return an error); `none` when a `Corrupt` call does not return. -/
def runCalls (vd : VirtualDisk) : List Call → Option VirtualDisk
  | [] => some vd
  | .addFile r :: rest => runCalls (AddFile vd r).1 rest
  | .reset :: rest => runCalls (Reset vd) rest
  | .corrupt tape :: rest =>
    match Corrupt vd tape with
    | .ok res => runCalls res.disk rest
    | .error _ => none

/-- The entries lie in order inside `[lo, hi]`: each has `Head ≤ Tail`, the
first starts at or after `lo`, each starts at or after the end of the one
before, and the last ends at or before `hi`. -/
def laidOut (lo hi : Int) : List Entry → Prop
  | [] => lo ≤ hi
  | e :: es => lo ≤ e.Head ∧ e.Head ≤ e.Tail ∧ laidOut e.Tail hi es

/-! ## Concrete disks and runs -/

/-- A source that delivers two bytes and then fails. -/
def failingReader : Reader :=
  .chunk [8, 9] (.fail "read error")

/-- A failing `AddFile`, a successful one, a `Corrupt`, a `Reset`, and two more
`AddFile` calls around a failing one. -/
def mixedCalls : List Call :=
  [.addFile failingReader, .addFile (.chunk [1, 2, 3] .eof),
   .corrupt (drawTape (2 ^ 51) 0 ++ (drawTape (2 ^ 51) 0 ++ [9, 9])),
   .reset, .addFile (.chunk [1] .eof), .addFile failingReader, .addFile (.chunk [4, 5] .eof)]

/-- The disk after `mixedCalls`. -/
def mixedCallsDisk : VirtualDisk :=
  { Entries := [⟨0, 1⟩, ⟨3, 5⟩], Buffer := [1, 8, 9, 4, 5] }


/-- Three files of 10 bytes each, all zero. -/
def tenTenTenDisk : VirtualDisk :=
  { Entries := [⟨0, 10⟩, ⟨10, 20⟩, ⟨20, 30⟩], Buffer := List.replicate 30 0 }

/-- Draws giving `p = 5`, `n = 10` on a 30-byte disk, then eleven byte draws. -/
def tapeFiveFifteen : Tape :=
  drawTape (2 ^ 51) 2 ++ (drawTape (5 * 2 ^ 49) 1 ++ List.replicate 11 7)

/-- Draws giving `p = 8`, `n = 1` on a 30-byte disk, then two byte draws. -/
def tapeEightNine : Tape :=
  drawTape (2 ^ 49) 1 ++ (drawTape 0 3 ++ List.replicate 2 7)

/-- The disk `roundingDisk` after `Corrupt` has consumed `roundingTape`. -/
def roundingDiskAfter : VirtualDisk :=
  { Entries := [⟨0, 2⟩, ⟨2, 6⟩], Buffer := [0, 0, 7, 7, 7, 7] }

/-- A disk holding one file of three bytes. -/
def threeByteDisk : VirtualDisk :=
  { Entries := [⟨0, 3⟩], Buffer := [0, 0, 0] }

/-- Draws on which the first product is a tie: the sampler value is
`6004799503160661 / 2^53`, its exact product with 3 is `2 - 2^-53`, half-way
between two `float64` values, and rounds to `2.0`, so `p = 2`; then
`min(size-p, 32) = 1` and `n = 0`. One spare draw. -/
def tieTape : Tape :=
  drawTape 1501199875790165 0 ++ (drawTape (2 ^ 51) 0 ++ [9])

/-- Sources of 10, 2 and 10 zero bytes. -/
def containmentFiles : List Reader :=
  [.chunk (List.replicate 10 0) .eof, .chunk [0, 0] .eof, .chunk (List.replicate 10 0) .eof]

/-- The disk holding `containmentFiles`. -/
def containmentDisk : VirtualDisk :=
  { Entries := [⟨0, 10⟩, ⟨10, 12⟩, ⟨12, 22⟩], Buffer := List.replicate 22 0 }

/-- Draws giving `p = 9`, `n = 5` on a 22-byte disk, then six byte draws. -/
def containmentTape : Tape :=
  drawTape (3 * 2 ^ 50) 1 ++ (drawTape (3 * 2 ^ 50) 1 ++ List.replicate 6 7)

/-- A 6-byte disk with one file, holding the three protected values. -/
def markerDisk : VirtualDisk :=
  { Entries := [⟨0, 6⟩], Buffer := [0xFF, 0xD8, 1, 2, 0xFF, 0xD9] }

/-- Draws giving `p = 2`, `n = 3` on a 6-byte disk, then two byte draws. -/
def markerTape : Tape :=
  drawTape (2 ^ 51) 1 ++ (drawTape (2 ^ 51) 0 ++ [9, 9])

/-- The disk `markerDisk` after `Corrupt` has consumed `markerTape`. -/
def markerDiskAfter : VirtualDisk :=
  { Entries := [⟨0, 6⟩], Buffer := [0xFF, 0xD8, 9, 9, 0xFF, 0xD9] }

/-- A disk holding one file of one byte. -/
def oneByteDisk : VirtualDisk :=
  { Entries := [⟨0, 1⟩], Buffer := [7] }

/-- Draws giving `p = 0`, `n = 0` on a one-byte disk, and one spare draw. -/
def zeroLengthTape : Tape :=
  drawTape 0 0 ++ (drawTape 0 0 ++ [9])


/-- Three sources of 2, 0 and 3 bytes; the last is read in two chunks. -/
def threeFiles : List Reader :=
  [.chunk [1, 2] .eof, .eof, .chunk [5] (.chunk [6, 7] .eof)]

/-- The disk holding `threeFiles`. -/
def threeFilesDisk : VirtualDisk :=
  { Entries := [⟨0, 2⟩, ⟨2, 2⟩, ⟨2, 5⟩], Buffer := [1, 2, 5, 6, 7] }

/-- Sources of 2 and 4 zero bytes. -/
def roundingFiles : List Reader :=
  [.chunk [0, 0] .eof, .chunk [0, 0, 0, 0] .eof]

/-- The disk holding `roundingFiles`. -/
def roundingDisk : VirtualDisk :=
  { Entries := [⟨0, 2⟩, ⟨2, 6⟩], Buffer := List.replicate 6 0 }

/-- Draws on which the first product rounds up to an integer: the sampler value
is `6004799503160661 / 2^54`, just below `1/3`, and its product with 6 rounds
to `2.0`, so `p = 2`; the second sampler value is `3/4`, so `n = 3`. Then four
byte draws. -/
def roundingTape : Tape :=
  drawTape 1501199875790165 1 ++ (drawTape (2 ^ 51) 0 ++ List.replicate 4 7)

/-! ## Storage: `AddFile`, `GetFile` -/

theorem ioCopy_eq (r : Reader) (dst : List Nat) :
    ioCopy dst r = (dst ++ r.bytes, (r.bytes.length : Int), r.err) := by
  induction r generalizing dst with
  | eof => simp [ioCopy, Reader.bytes, Reader.err]
  | fail e => simp [ioCopy, Reader.bytes, Reader.err]
  | chunk bs rest ih =>
    simp only [ioCopy, ih, Reader.bytes, Reader.err, List.append_assoc, List.length_append]
    simp

theorem AddFile_ok (vd : VirtualDisk) (r : Reader) (h : r.err = none) :
    AddFile vd r =
      ({ Entries := vd.Entries ++
            [{ Head := (vd.Buffer.length : Int),
               Tail := (r.bytes.length : Int) + (vd.Buffer.length : Int) }],
         Buffer := vd.Buffer ++ r.bytes }, none) := by
  simp [AddFile, ioCopy_eq, h]

theorem AddFile_fail (vd : VirtualDisk) (r : Reader) (e : String) (h : r.err = some e) :
    AddFile vd r = ({ vd with Buffer := vd.Buffer ++ r.bytes }, some e) := by
  simp [AddFile, ioCopy_eq, h]

theorem addFiles_eq (rs : List Reader) (vd vd1 : VirtualDisk)
    (h : addFiles vd rs = some vd1) :
    vd1.Entries = vd.Entries ++ layout vd.Buffer.length (rs.map Reader.bytes) ∧
    vd1.Buffer = vd.Buffer ++ concatAll (rs.map Reader.bytes) := by
  induction rs generalizing vd with
  | nil =>
    simp only [addFiles, Option.some.injEq] at h
    subst h
    simp [layout, concatAll]
  | cons r rs ih =>
    cases hr : r.err with
    | some e => simp [addFiles, AddFile_fail vd r e hr] at h
    | none =>
      simp only [addFiles, AddFile_ok vd r hr] at h
      obtain ⟨h1, h2⟩ := ih _ h
      simp only [List.length_append, Nat.cast_add] at h1
      simp [h1, h2, layout, concatAll, add_comm]

theorem layout_length (cs : List (List Nat)) (start : Int) :
    (layout start cs).length = cs.length := by
  induction cs generalizing start with
  | nil => rfl
  | cons c cs ih => simp [layout, ih]

theorem layout_tail (cs : List (List Nat)) (start : Int) (i : Nat) (e : Entry) (c : List Nat)
    (he : (layout start cs)[i]? = some e) (hc : cs[i]? = some c) :
    e.Tail = e.Head + c.length := by
  induction cs generalizing start i with
  | nil => simp at hc
  | cons c0 cs ih =>
    cases i with
    | zero =>
      simp only [layout, List.getElem?_cons_zero, Option.some.injEq] at he hc
      subst he; subst hc; simp [add_comm]
    | succ i =>
      simp only [layout, List.getElem?_cons_succ] at he hc
      exact ih _ i he hc

theorem layout_head_ge (cs : List (List Nat)) (start : Int) (i : Nat) (e : Entry)
    (he : (layout start cs)[i]? = some e) : start ≤ e.Head := by
  induction cs generalizing start i with
  | nil => simp [layout] at he
  | cons c0 cs ih =>
    cases i with
    | zero =>
      simp only [layout, List.getElem?_cons_zero, Option.some.injEq] at he
      subst he; simp
    | succ i =>
      simp only [layout, List.getElem?_cons_succ] at he
      have := ih _ i he
      omega

theorem layout_next (cs : List (List Nat)) (start : Int) (i : Nat) (e e1 : Entry)
    (he : (layout start cs)[i]? = some e) (he1 : (layout start cs)[i + 1]? = some e1) :
    e1.Head = e.Tail := by
  induction cs generalizing start i with
  | nil => simp [layout] at he
  | cons c0 cs ih =>
    cases i with
    | zero =>
      simp only [layout, List.getElem?_cons_zero, Option.some.injEq] at he
      simp only [layout, List.getElem?_cons_succ] at he1
      cases cs with
      | nil => simp [layout] at he1
      | cons c1 cs =>
        simp only [layout, List.getElem?_cons_zero, Option.some.injEq] at he1
        subst he; subst he1; rfl
    | succ i =>
      simp only [layout, List.getElem?_cons_succ] at he he1
      exact ih _ i he he1

theorem layout_slice (cs : List (List Nat)) (pre : List Nat) (i : Nat) (e : Entry)
    (c : List Nat) (he : (layout pre.length cs)[i]? = some e) (hc : cs[i]? = some c) :
    sliceBytes (pre ++ concatAll cs) [] e.Head e.Tail = .ok c := by
  induction cs generalizing pre i with
  | nil => simp at hc
  | cons c0 cs ih =>
    cases i with
    | zero =>
      simp only [layout, List.getElem?_cons_zero, Option.some.injEq] at he hc
      subst he; subst hc
      have h1 : ¬ ((pre.length : Int) < 0 ∨
          (c0.length : Int) + (pre.length : Int) < (pre.length : Int) ∨
          (((pre ++ concatAll (c0 :: cs)).length + ([] : List Nat).length : Nat) : Int) <
            (c0.length : Int) + (pre.length : Int)) := by
        simp only [concatAll, List.length_append, List.length_nil, Nat.cast_add, Nat.cast_zero]
        omega
      simp only [sliceBytes, h1, if_false, concatAll]
      have h2 : ((c0.length : Int) + (pre.length : Int) - (pre.length : Int)).toNat = c0.length := by
        omega
      simp [h2]
      try omega
    | succ i =>
      simp only [layout, List.getElem?_cons_succ] at he hc
      have h := ih (pre ++ c0) i (by simpa [add_comm] using he) hc
      simpa [concatAll] using h

theorem sliceBytes_ok (raw slack : List Nat) (head tail : Int)
    (h0 : 0 ≤ head) (h1 : head ≤ tail) (h2 : tail ≤ (raw.length : Int)) :
    sliceBytes raw slack head tail =
      .ok ((raw.drop head.toNat).take (tail - head).toNat) := by
  have h : ¬ (head < 0 ∨ tail < head ∨ ((raw.length + slack.length : Nat) : Int) < tail) := by
    push_cast
    omega
  have hd : head.toNat ≤ raw.length := by omega
  have ht : (tail - head).toNat ≤ (raw.drop head.toNat).length := by
    rw [List.length_drop]
    omega
  simp only [sliceBytes, h, if_false]
  rw [List.drop_append_of_le_length hd, List.take_append_of_le_length ht]

theorem sliceBytes_slack (raw slack : List Nat) (head tail : Int) (c : List Nat)
    (h : sliceBytes raw [] head tail = .ok c) : sliceBytes raw slack head tail = .ok c := by
  unfold sliceBytes at h
  by_cases hg : head < 0 ∨ tail < head ∨
      ((raw.length + ([] : List Nat).length : Nat) : Int) < tail
  · rw [if_pos hg] at h
    cases h
  · rw [if_neg hg] at h
    simp only [List.length_nil, Nat.add_zero] at hg
    rw [sliceBytes_ok raw slack head tail (by omega) (by omega) (by omega)]
    simpa using h

/-- C1. Starting from an empty disk (new, or just Reset), after a run of
successful AddFile calls the Entries list has one entry per call; the first
entry starts at 0, the i-th entry spans exactly the length of the i-th source,
and each entry starts where the previous one ends. -/
theorem C1_addFile_entries_contiguous (vd0 vd : VirtualDisk) (rs : List Reader)
    (h0 : vd0 = NewVirtualDisk ∨ ∃ v, vd0 = Reset v)
    (h : addFiles vd0 rs = some vd) :
    vd.Entries.length = rs.length ∧
    (∀ e, vd.Entries[0]? = some e → e.Head = 0) ∧
    (∀ (i : Nat) (e : Entry) (r : Reader), vd.Entries[i]? = some e → rs[i]? = some r →
      e.Tail = e.Head + (r.bytes.length : Int)) ∧
    (∀ (i : Nat) (e e1 : Entry), vd.Entries[i]? = some e → vd.Entries[i + 1]? = some e1 →
      e1.Head = e.Tail) := by
  have hempty : vd0.Entries = [] ∧ vd0.Buffer = [] := by
    rcases h0 with h0 | ⟨v, h0⟩ <;> subst h0 <;> simp [NewVirtualDisk, Reset]
  obtain ⟨hE, -⟩ := addFiles_eq rs vd0 vd h
  rw [hempty.1, hempty.2] at hE
  simp only [List.nil_append, List.length_nil, Nat.cast_zero] at hE
  rw [hE]
  refine ⟨by simp [layout_length], ?_, ?_, ?_⟩
  · intro e he
    cases hrs : rs.map Reader.bytes with
    | nil => simp [hrs, layout] at he
    | cons c cs =>
      simp only [hrs, layout, List.getElem?_cons_zero, Option.some.injEq] at he
      subst he; rfl
  · intro i e r he hr
    refine layout_tail _ _ i e r.bytes he ?_
    simp [List.getElem?_map, hr]
  · intro i e e1 he he1
    exact layout_next _ _ i e e1 he he1

/-- C1, at a concrete run: three files of 2, 0 and 3 bytes, the last one read
in two chunks. -/
theorem C1_addFile_entries_contiguous_witness :
    addFiles NewVirtualDisk threeFiles = some threeFilesDisk ∧
    (threeFilesDisk.Entries.length = threeFiles.length ∧
    (∀ e, threeFilesDisk.Entries[0]? = some e → e.Head = 0) ∧
    (∀ (i : Nat) (e : Entry) (r : Reader), threeFilesDisk.Entries[i]? = some e → threeFiles[i]? = some r →
      e.Tail = e.Head + (r.bytes.length : Int)) ∧
    (∀ (i : Nat) (e e1 : Entry), threeFilesDisk.Entries[i]? = some e →
      threeFilesDisk.Entries[i + 1]? = some e1 → e1.Head = e.Tail)) :=
  ⟨by decide, C1_addFile_entries_contiguous NewVirtualDisk threeFilesDisk threeFiles
    (Or.inl rfl) (by decide)⟩

/-- C2. Round trip: starting from an empty disk, after a run of successful
AddFile calls and no Corrupt call, GetFile(i) for every valid i returns
exactly the bytes of the i-th source together with Entries[i]. -/
theorem C2_getFile_after_addFile (vd0 vd : VirtualDisk) (rs : List Reader)
    (h0 : vd0 = NewVirtualDisk ∨ ∃ v, vd0 = Reset v)
    (h : addFiles vd0 rs = some vd) (i : Nat) (r : Reader) (hr : rs[i]? = some r) :
    ∃ e, vd.Entries[i]? = some e ∧
      ∀ slack : List Nat, GetFile vd slack (i : Int) = .ok (some (r.bytes, e), vd) := by
  have hempty : vd0.Entries = [] ∧ vd0.Buffer = [] := by
    rcases h0 with h0 | ⟨v, h0⟩ <;> subst h0 <;> simp [NewVirtualDisk, Reset]
  obtain ⟨hE, hB⟩ := addFiles_eq rs vd0 vd h
  rw [hempty.1, hempty.2] at hE
  rw [hempty.2] at hB
  simp only [List.nil_append, List.length_nil, Nat.cast_zero] at hE hB
  have hi : i < rs.length := by
    rcases Nat.lt_or_ge i rs.length with hlt | hge
    · exact hlt
    · rw [List.getElem?_eq_none hge] at hr; cases hr
  have hlen : vd.Entries.length = rs.length := by simp [hE, layout_length]
  have hiE : i < vd.Entries.length := by omega
  refine ⟨vd.Entries[i], List.getElem?_eq_getElem hiE, ?_⟩
  have he : (layout ((([] : List Nat).length : Nat) : Int) (rs.map Reader.bytes))[i]? =
      some vd.Entries[i] := by
    rw [← List.getElem?_eq_getElem hiE, hE]; rfl
  have hc : (rs.map Reader.bytes)[i]? = some r.bytes := by simp [List.getElem?_map, hr]
  have hs := layout_slice (rs.map Reader.bytes) [] i _ _ he hc
  rw [List.nil_append, ← hB] at hs
  have hg : ¬ ((i : Int) ≥ (vd.Entries.length : Int) ∨ (i : Int) < 0) := by omega
  intro slack
  have hs1 := sliceBytes_slack _ slack _ _ _ hs
  simp only [GetFile, hg, if_false, Int.toNat_ofNat, List.getElem?_eq_getElem hiE, hs1]

/-- C2, at a concrete run: the third of three files, read in two chunks. -/
theorem C2_getFile_after_addFile_witness :
    addFiles NewVirtualDisk threeFiles = some threeFilesDisk ∧
    threeFiles[2]? = some (Reader.chunk [5] (Reader.chunk [6, 7] Reader.eof)) ∧
    ∃ e, threeFilesDisk.Entries[2]? = some e ∧
      ∀ slack : List Nat, GetFile threeFilesDisk slack ((2 : Nat) : Int) =
        .ok (some ((Reader.chunk [5] (Reader.chunk [6, 7] Reader.eof)).bytes, e),
          threeFilesDisk) :=
  ⟨by decide, by decide,
    C2_getFile_after_addFile NewVirtualDisk threeFilesDisk threeFiles (Or.inl rfl)
      (by decide) 2 _ (by decide)⟩

theorem GetFile_in_range (vd : VirtualDisk) (slack : List Nat) (index : Int)
    (h0 : 0 ≤ index) (h1 : index < (vd.Entries.length : Int)) :
    ∃ e, vd.Entries[index.toNat]? = some e ∧
      GetFile vd slack index =
        match sliceBytes vd.Buffer slack e.Head e.Tail with
        | .error f => .error f
        | .ok data => .ok (some (data, e), vd) := by
  have hi : index.toNat < vd.Entries.length := by omega
  have hg : ¬ (index ≥ (vd.Entries.length : Int) ∨ index < 0) := by omega
  refine ⟨vd.Entries[index.toNat], List.getElem?_eq_getElem hi, ?_⟩
  simp only [GetFile, hg, if_false, List.getElem?_eq_getElem hi]

theorem GetFile_spec (vd : VirtualDisk) (slack : List Nat) (index : Int) :
    (GetFile vd slack index = .ok (none, vd) ↔
      (index < 0 ∨ index ≥ (vd.Entries.length : Int))) ∧
    (∀ e : Entry, 0 ≤ index → vd.Entries[index.toNat]? = some e →
      0 ≤ e.Head → e.Head ≤ e.Tail → e.Tail ≤ (vd.Buffer.length : Int) →
      GetFile vd slack index =
        .ok (some ((vd.Buffer.drop e.Head.toNat).take (e.Tail - e.Head).toNat, e), vd)) ∧
    (∀ res vd1, GetFile vd slack index = .ok (res, vd1) → vd1 = vd) := by
  by_cases hout : index < 0 ∨ index ≥ (vd.Entries.length : Int)
  · have hg : index ≥ (vd.Entries.length : Int) ∨ index < 0 := by omega
    have hres : GetFile vd slack index = .ok (none, vd) := by
      simp only [GetFile, hg, if_true]
    refine ⟨⟨fun _ => hout, fun _ => hres⟩, ?_, ?_⟩
    · intro e h0 he
      have : index.toNat < vd.Entries.length := by
        rcases Nat.lt_or_ge index.toNat vd.Entries.length with hlt | hge
        · exact hlt
        · rw [List.getElem?_eq_none hge] at he; cases he
      omega
    · intro res vd1 h
      rw [hres] at h
      cases h
      rfl
  · obtain ⟨e0, he0, hget⟩ := GetFile_in_range vd slack index (by omega) (by omega)
    refine ⟨⟨fun h => ?_, fun h => absurd h hout⟩, ?_, ?_⟩
    · rw [hget] at h
      cases hs : sliceBytes vd.Buffer slack e0.Head e0.Tail with
      | error f => rw [hs] at h; cases h
      | ok data => rw [hs] at h; cases h
    · intro e _ he h0 h1 h2
      rw [he0] at he
      cases he
      rw [hget, sliceBytes_ok _ _ _ _ h0 h1 h2]
    · intro res vd1 h
      rw [hget] at h
      cases hs : sliceBytes vd.Buffer slack e0.Head e0.Tail with
      | error f => rw [hs] at h; cases h
      | ok data => rw [hs] at h; cases h; rfl

/-! ## The overlap test -/

theorem Overlap_true_iff (self other : Entry) :
    self.Overlap other = true ↔
      (other.Head ≤ self.Head ∧ self.Head < other.Tail) ∨
      (other.Head < self.Tail ∧ self.Tail ≤ other.Tail) := by
  simp [Entry.Overlap]

/-- C8. `self.Overlap(other)` is true exactly when self.Head lies in
[other.Head, other.Tail) or self.Tail lies in (other.Head, other.Tail]. -/
theorem C8_overlap_iff (self other : Entry) :
    self.Overlap other = true ↔
      (other.Head ≤ self.Head ∧ self.Head < other.Tail) ∨
      (other.Head < self.Tail ∧ self.Tail ≤ other.Tail) := by
  simp [Entry.Overlap]

/-- C9. When self strictly contains other (self.Head < other.Head and
other.Tail < self.Tail), `self.Overlap(other)` is false, although for a
non-empty other the symmetric intersection test is true. -/
theorem C9_overlap_misses_strict_containment (self other : Entry)
    (h1 : self.Head < other.Head) (h2 : other.Tail < self.Tail) :
    self.Overlap other = false ∧
      (other.Head < other.Tail → self.Intersects other = true) := by
  constructor
  · rw [Bool.eq_false_iff]
    intro h
    rw [Overlap_true_iff] at h
    omega
  · intro h3
    simp only [Entry.Intersects, Bool.and_eq_true, decide_eq_true_eq]
    omega

/-- C9, at a concrete pair: the range [9,14) against the entry [10,12). -/
theorem C9_overlap_misses_strict_containment_witness :
    Entry.Overlap ⟨9, 14⟩ ⟨10, 12⟩ = false ∧
      (((⟨10, 12⟩ : Entry).Head < (⟨10, 12⟩ : Entry).Tail) →
        Entry.Intersects ⟨9, 14⟩ ⟨10, 12⟩ = true) :=
  C9_overlap_misses_strict_containment ⟨9, 14⟩ ⟨10, 12⟩ (by decide) (by decide)

/-! ## The corruption engine -/

theorem indexByte_ok (raw : List Nat) (i : Int) (b : Nat) (h : indexByte raw i = .ok b) :
    0 ≤ i ∧ raw[i.toNat]? = some b := by
  unfold indexByte at h
  by_cases hi : i < 0
  · simp [hi] at h
  · simp only [hi, if_false] at h
    cases hb : raw[i.toNat]? with
    | none => rw [hb] at h; cases h
    | some c => rw [hb] at h; cases h; exact ⟨by omega, rfl⟩

theorem corruptLoop_spec (k : Nat) (i : Int) (raw : List Nat) (tape : Tape)
    (raw1 : List Nat) (tape1 : Tape) (h : corruptLoop k i raw tape = .ok (raw1, tape1)) :
    raw1.length = raw.length ∧
    (∀ j : Nat, ((j : Int) < i ∨ i + (k : Int) ≤ (j : Int)) → raw1[j]? = raw[j]?) ∧
    (∀ (j : Nat) (b : Nat), raw[j]? = some b →
      bytesContains1 jpegSoiEoiMarkers b = true → raw1[j]? = some b) := by
  induction k generalizing i raw tape with
  | zero =>
    simp only [corruptLoop, Except.ok.injEq, Prod.mk.injEq] at h
    obtain ⟨h1, -⟩ := h
    subst h1
    exact ⟨rfl, fun _ _ => rfl, fun _ _ hb _ => hb⟩
  | succ k ih =>
    unfold corruptLoop at h
    cases hb : indexByte raw i with
    | error f => rw [hb] at h; cases h
    | ok b =>
      rw [hb] at h
      obtain ⟨hi0, hib⟩ := indexByte_ok raw i b hb
      by_cases hp : bytesContains1 jpegSoiEoiMarkers b = true
      · simp only [hp, Bool.not_true, Bool.false_eq_true, if_false] at h
        obtain ⟨h1, h2, h3⟩ := ih (i + 1) raw tape h
        refine ⟨h1, ?_, h3⟩
        intro j hj
        apply h2
        push_cast at hj
        omega
      · simp only [hp, Bool.not_false, if_true] at h
        cases hr : randIntn 256 tape with
        | error f => rw [hr] at h; cases h
        | ok rt =>
          obtain ⟨r, t1⟩ := rt
          rw [hr] at h
          obtain ⟨h1, h2, h3⟩ := ih (i + 1) (raw.set i.toNat (r % 256)) t1 h
          refine ⟨by rw [h1, List.length_set], ?_, ?_⟩
          · intro j hj
            push_cast at hj
            have hne : i.toNat ≠ j := by omega
            rw [h2 j (by omega), List.getElem?_set_ne hne]
          · intro j c hc hcp
            have hne : i.toNat ≠ j := by
              intro he
              rw [← he, hib] at hc
              cases hc
              exact hp hcp
            apply h3 j c _ hcp
            rw [List.getElem?_set_ne hne, hc]

theorem affectedLoop_mem (area : Entry) (es : List Entry) (index : Int) (acc : List Int)
    (i : Int) :
    i ∈ affectedLoop area es index acc ↔
      i ∈ acc ∨ ∃ (k : Nat) (e : Entry),
        es[k]? = some e ∧ area.Overlap e = true ∧ i = index + (k : Int) := by
  induction es generalizing index acc with
  | nil => simp [affectedLoop]
  | cons e0 es ih =>
    unfold affectedLoop
    have hshift : (∃ (k : Nat) (e : Entry),
          (e0 :: es)[k]? = some e ∧ area.Overlap e = true ∧ i = index + (k : Int)) ↔
        ((area.Overlap e0 = true ∧ i = index) ∨ ∃ (k : Nat) (e : Entry),
          es[k]? = some e ∧ area.Overlap e = true ∧ i = index + 1 + (k : Int)) := by
      constructor
      · rintro ⟨k, e, hk, ho, hi⟩
        cases k with
        | zero =>
          simp only [List.getElem?_cons_zero, Option.some.injEq] at hk
          subst hk
          left
          exact ⟨ho, by simpa using hi⟩
        | succ k =>
          simp only [List.getElem?_cons_succ] at hk
          right
          exact ⟨k, e, hk, ho, by push_cast at hi; omega⟩
      · rintro (⟨ho, hi⟩ | ⟨k, e, hk, ho, hi⟩)
        · exact ⟨0, e0, by simp, ho, by simpa using hi⟩
        · exact ⟨k + 1, e, by simpa using hk, ho, by push_cast; omega⟩
    rw [hshift]
    by_cases ho : area.Overlap e0 = true
    · simp only [ho, if_true, ih, List.mem_append, List.mem_singleton, true_and]
      tauto
    · simp only [ho, Bool.false_eq_true, if_false, false_and, false_or]
      exact ih (index + 1) acc

theorem affectedLoop_sorted (area : Entry) (es : List Entry) (index : Int) (acc : List Int)
    (hs : acc.Pairwise (· < ·)) (hb : ∀ a ∈ acc, a < index) :
    (affectedLoop area es index acc).Pairwise (· < ·) := by
  induction es generalizing index acc with
  | nil => simpa [affectedLoop] using hs
  | cons e0 es ih =>
    unfold affectedLoop
    by_cases ho : area.Overlap e0 = true
    · simp only [ho, if_true]
      apply ih
      · rw [List.pairwise_append]
        refine ⟨hs, List.pairwise_singleton _ _, ?_⟩
        intro a ha b hb1
        rw [List.mem_singleton] at hb1
        subst hb1
        exact hb a ha
      · intro a ha
        rw [List.mem_append, List.mem_singleton] at ha
        rcases ha with ha | ha
        · have := hb a ha
          omega
        · omega
    · simp only [ho, if_false]
      apply ih _ _ hs
      intro a ha
      have := hb a ha
      omega

/-! ## The sampler and the corruption window -/

theorem intOfFloat_eq_floor (x : ℚ) (hx : 0 ≤ x) : intOfFloat x = ⌊x⌋ := by
  unfold intOfFloat
  rw [Rat.floor_def, Int.tdiv_eq_ediv (Rat.num_nonneg.mpr hx) (Int.ofNat_nonneg _)]

theorem intOfFloat_zero : intOfFloat 0 = 0 := by
  simp [intOfFloat]

/-! ### Rounding to `float64` -/

theorem pow2_eq (e : Int) : pow2 e = (2 : ℚ) ^ e := by
  unfold pow2
  split_ifs with h
  · have he : ((e.toNat : Nat) : Int) = e := Int.toNat_of_nonneg h
    rw [Nat.cast_pow, Nat.cast_ofNat, ← zpow_natCast, he]
  · have he : (((-e).toNat : Nat) : Int) = -e := Int.toNat_of_nonneg (by omega)
    rw [Nat.cast_pow, Nat.cast_ofNat, ← zpow_natCast, he, zpow_neg, one_div, inv_inv]

theorem quantum_eq (x : ℚ) : quantum x = (2 : ℚ) ^ (max (Int.log 2 x) (-1022) - 52) :=
  pow2_eq _

theorem quantum_pos (x : ℚ) : 0 < quantum x := by
  rw [quantum_eq]
  positivity

theorem roundHalfEven_le_floor_succ (z : ℚ) : roundHalfEven z ≤ ⌊z⌋ + 1 := by
  unfold roundHalfEven
  simp only
  split_ifs <;> omega

theorem floor_le_roundHalfEven (z : ℚ) : ⌊z⌋ ≤ roundHalfEven z := by
  unfold roundHalfEven
  simp only
  split_ifs <;> omega

theorem roundHalfEven_le (z : ℚ) (Y : Int) (h : z ≤ (Y : ℚ)) : roundHalfEven z ≤ Y := by
  rcases lt_or_eq_of_le h with hlt | heq
  · have hf : ⌊z⌋ < Y := Int.floor_lt.mpr hlt
    have := roundHalfEven_le_floor_succ z
    omega
  · have hf : ⌊z⌋ = Y := by rw [heq]; exact Int.floor_intCast Y
    unfold roundHalfEven
    simp only
    rw [hf, heq]
    simp

theorem le_roundHalfEven (z : ℚ) (Y : Int) (h : (Y : ℚ) ≤ z) : Y ≤ roundHalfEven z :=
  le_trans (Int.le_floor.mpr h) (floor_le_roundHalfEven z)

theorem roundHalfEven_intCast (Y : Int) : roundHalfEven (Y : ℚ) = Y :=
  le_antisymm (roundHalfEven_le _ Y (le_refl _)) (le_roundHalfEven _ Y (le_refl _))

theorem roundHalfEven_le_pred (z : ℚ) (Y : Int) (h : z < (Y : ℚ) - 1 / 2) :
    roundHalfEven z ≤ Y - 1 := by
  have hz : z < (Y : ℚ) := by linarith
  have hf : ⌊z⌋ < Y := Int.floor_lt.mpr hz
  rcases lt_or_eq_of_le (Int.le_sub_one_of_lt hf) with h1 | h1
  · have := roundHalfEven_le_floor_succ z
    omega
  · have hr : z - ((⌊z⌋ : Int) : ℚ) < 1 / 2 := by
      rw [h1]
      push_cast
      linarith
    unfold roundHalfEven
    simp only
    rw [if_pos hr, h1]

theorem two_zpow_log_le (x : ℚ) (hx : 0 < x) : (2 : ℚ) ^ (Int.log 2 x) ≤ x := by
  have h := Int.zpow_log_le_self (b := 2) (r := x) (by decide) hx
  simpa using h

theorem lt_two_zpow_log_succ (x : ℚ) : x < (2 : ℚ) ^ (Int.log 2 x + 1) := by
  have h := Int.lt_zpow_succ_log_self (b := 2) (by decide) x
  simpa using h

theorem log_lt_of_lt_two_zpow (x : ℚ) (hx : 0 < x) (e : Int) (h : x < (2 : ℚ) ^ e) :
    Int.log 2 x < e := by
  have h1 := lt_of_le_of_lt (two_zpow_log_le x hx) h
  exact (zpow_lt_zpow_iff_right₀ (by norm_num : (1 : ℚ) < 2)).mp h1

theorem le_log_of_two_zpow_le (x : ℚ) (e : Int) (h : (2 : ℚ) ^ e ≤ x) :
    e ≤ Int.log 2 x := by
  have h1 := lt_of_le_of_lt h (lt_two_zpow_log_succ x)
  have := (zpow_lt_zpow_iff_right₀ (by norm_num : (1 : ℚ) < 2)).mp h1
  omega

/-- The scaled value `x / quantum x` is below `2^53`. -/
theorem div_quantum_lt (x : ℚ) : x / quantum x < 2 ^ 53 := by
  rw [div_lt_iff₀ (quantum_pos x), quantum_eq]
  have h1 := lt_two_zpow_log_succ x
  have h2 : (2 : ℚ) ^ (Int.log 2 x + 1) ≤ (2 : ℚ) ^ (max (Int.log 2 x) (-1022) + 1) :=
    zpow_le_zpow_right₀ (by norm_num) (by omega)
  have h3 : (2 : ℚ) ^ (max (Int.log 2 x) (-1022) + 1) =
      2 ^ 53 * (2 : ℚ) ^ (max (Int.log 2 x) (-1022) - 52) := by
    have : max (Int.log 2 x) (-1022) + 1 = 53 + (max (Int.log 2 x) (-1022) - 52) := by omega
    rw [this, zpow_add₀ (by norm_num)]
    norm_num
  linarith

/-- In the normal range the scaled value is at least `2^52`. -/
theorem le_div_quantum (x : ℚ) (hx : 0 < x) (hn : -1022 ≤ Int.log 2 x) :
    2 ^ 52 ≤ x / quantum x := by
  rw [le_div_iff₀ (quantum_pos x), quantum_eq, max_eq_left hn]
  have h1 := two_zpow_log_le x hx
  have h3 : (2 : ℚ) ^ (Int.log 2 x) = 2 ^ 52 * (2 : ℚ) ^ (Int.log 2 x - 52) := by
    have : Int.log 2 x = 52 + (Int.log 2 x - 52) := by omega
    rw [this, zpow_add₀ (by norm_num)]
    norm_num
  linarith

/-- A float at or above `x` is a whole multiple of the quantum of `x`. -/
theorem isFloat64_multiple (x y : ℚ) (hx : 0 < x) (hxy : x ≤ y) (hy : isFloat64 y) :
    ∃ Y : Nat, y = (Y : ℚ) * quantum x := by
  obtain ⟨K, s, hK, hs, rfl⟩ := hy
  have hKq : (K : ℚ) < 2 ^ 53 := by exact_mod_cast hK
  have hlt : x < (2 : ℚ) ^ (53 + s) := by
    rw [zpow_add₀ (by norm_num)]
    have hp : (0 : ℚ) < (2 : ℚ) ^ s := by positivity
    calc x ≤ (K : ℚ) * (2 : ℚ) ^ s := hxy
      _ < 2 ^ 53 * (2 : ℚ) ^ s := by
        have := mul_lt_mul_of_pos_right hKq hp
        simpa using this
      _ = (2 : ℚ) ^ (53 : Int) * (2 : ℚ) ^ s := by norm_num
  have hlog := log_lt_of_lt_two_zpow x hx _ hlt
  have hd : 0 ≤ s - (max (Int.log 2 x) (-1022) - 52) := by omega
  refine ⟨K * 2 ^ (s - (max (Int.log 2 x) (-1022) - 52)).toNat, ?_⟩
  rw [quantum_eq]
  have he : (((s - (max (Int.log 2 x) (-1022) - 52)).toNat : Nat) : Int) =
      s - (max (Int.log 2 x) (-1022) - 52) := Int.toNat_of_nonneg hd
  have hs2 : s = (s - (max (Int.log 2 x) (-1022) - 52)) + (max (Int.log 2 x) (-1022) - 52) := by
    omega
  rw [Nat.cast_mul, Nat.cast_pow, Nat.cast_ofNat, ← zpow_natCast, he, mul_assoc,
    ← zpow_add₀ (by norm_num), ← hs2]

theorem roundF64_zero : roundF64 0 = 0 := by
  simp [roundF64]

theorem roundF64_nonneg (x : ℚ) : 0 ≤ roundF64 x := by
  unfold roundF64
  split_ifs with h
  · exact le_refl _
  · have hx : 0 < x := lt_of_not_ge h
    have hz : (0 : ℚ) ≤ x / quantum x := le_of_lt (div_pos hx (quantum_pos x))
    have hk : (0 : Int) ≤ roundHalfEven (x / quantum x) := le_roundHalfEven _ 0 (by simpa using hz)
    have hkq : (0 : ℚ) ≤ (roundHalfEven (x / quantum x) : ℚ) := by exact_mod_cast hk
    exact mul_nonneg hkq (le_of_lt (quantum_pos x))

/-- Rounding never passes a float: a float at or above `x` is at or above the
rounded `x`. -/
theorem roundF64_le (x y : ℚ) (hx : 0 < x) (hxy : x ≤ y) (hy : isFloat64 y) :
    roundF64 x ≤ y := by
  obtain ⟨Y, hY⟩ := isFloat64_multiple x y hx hxy hy
  have hq := quantum_pos x
  have hz : x / quantum x ≤ ((Y : Int) : ℚ) := by
    rw [div_le_iff₀ hq]
    push_cast
    rw [← hY]
    exact hxy
  have hk := roundHalfEven_le _ (Y : Int) hz
  have hkq : (roundHalfEven (x / quantum x) : ℚ) ≤ (Y : ℚ) := by exact_mod_cast hk
  unfold roundF64
  rw [if_neg (not_le.mpr hx), hY]
  exact mul_le_mul_of_nonneg_right hkq (le_of_lt hq)

/-- A float rounds to itself. -/
theorem roundF64_of_isFloat64 (x : ℚ) (hx : isFloat64 x) : roundF64 x = x := by
  rcases le_or_lt x 0 with h0 | h0
  · obtain ⟨K, s, -, -, rfl⟩ := hx
    have : (0 : ℚ) ≤ (K : ℚ) * (2 : ℚ) ^ s := by positivity
    have h1 : (K : ℚ) * (2 : ℚ) ^ s = 0 := le_antisymm h0 this
    rw [h1, roundF64_zero]
  · obtain ⟨Y, hY⟩ := isFloat64_multiple x x h0 (le_refl _) hx
    have hq := quantum_pos x
    have hz : x / quantum x = ((Y : Int) : ℚ) := by
      rw [div_eq_iff (ne_of_gt hq)]
      push_cast
      exact hY
    unfold roundF64
    rw [if_neg (not_le.mpr h0), hz, roundHalfEven_intCast]
    push_cast
    exact hY.symm

/-- The result of rounding is a float. -/
theorem isFloat64_roundF64 (x : ℚ) : isFloat64 (roundF64 x) := by
  rcases le_or_lt x 0 with h0 | h0
  · refine ⟨0, 0, by norm_num, by norm_num, ?_⟩
    simp [roundF64, h0]
  · have hq := quantum_pos x
    have hz0 : (0 : ℚ) ≤ x / quantum x := le_of_lt (div_pos h0 hq)
    have hk0 : (0 : Int) ≤ roundHalfEven (x / quantum x) := le_roundHalfEven _ 0 (by simpa using hz0)
    have hk1 : roundHalfEven (x / quantum x) ≤ 2 ^ 53 :=
      roundHalfEven_le _ (2 ^ 53) (by push_cast; exact le_of_lt (div_quantum_lt x))
    have hval : roundF64 x = (roundHalfEven (x / quantum x) : ℚ) *
        (2 : ℚ) ^ (max (Int.log 2 x) (-1022) - 52) := by
      unfold roundF64
      rw [if_neg (not_le.mpr h0), quantum_eq]
    rcases lt_or_eq_of_le hk1 with hlt | heq
    · refine ⟨(roundHalfEven (x / quantum x)).toNat, max (Int.log 2 x) (-1022) - 52, ?_, by omega, ?_⟩
      · omega
      · rw [hval]
        congr 1
        have : (((roundHalfEven (x / quantum x)).toNat : Nat) : Int) =
            roundHalfEven (x / quantum x) := Int.toNat_of_nonneg hk0
        exact_mod_cast this.symm
    · refine ⟨2 ^ 52, max (Int.log 2 x) (-1022) - 52 + 1, by norm_num, by omega, ?_⟩
      rw [hval, heq, zpow_add₀ (by norm_num)]
      push_cast
      ring

/-- Rounding a value at least 1 gives at least 1. -/
theorem one_le_roundF64 (x : ℚ) (hx : 1 ≤ x) : 1 ≤ roundF64 x := by
  have h0 : 0 < x := by linarith
  have hlog : 0 ≤ Int.log 2 x := le_log_of_two_zpow_le x 0 (by simpa using hx)
  have hq := quantum_pos x
  have hz := le_div_quantum x h0 (by omega)
  have hk : (2 ^ 52 : Int) ≤ roundHalfEven (x / quantum x) :=
    le_roundHalfEven _ (2 ^ 52) (by push_cast; exact hz)
  have hkq : (2 ^ 52 : ℚ) ≤ (roundHalfEven (x / quantum x) : ℚ) := by exact_mod_cast hk
  have hq1 : (1 : ℚ) ≤ 2 ^ 52 * quantum x := by
    rw [quantum_eq, max_eq_left (by omega : (-1022 : Int) ≤ Int.log 2 x)]
    have h3 : (2 : ℚ) ^ (52 : Nat) * (2 : ℚ) ^ (Int.log 2 x - 52) = (2 : ℚ) ^ (Int.log 2 x) := by
      rw [← zpow_natCast, ← zpow_add₀ (by norm_num)]
      congr 1
      omega
    rw [h3]
    have := zpow_le_zpow_right₀ (by norm_num : (1 : ℚ) ≤ 2) hlog
    simpa using this
  unfold roundF64
  rw [if_neg (not_le.mpr h0)]
  calc (1 : ℚ) ≤ 2 ^ 52 * quantum x := hq1
    _ ≤ (roundHalfEven (x / quantum x) : ℚ) * quantum x :=
      mul_le_mul_of_nonneg_right hkq (le_of_lt hq)

/-- A positive value at most `F * (1 - 2^-53)`, for a float `F ≥ 1`, rounds
strictly below `F`. -/
theorem roundF64_lt (x F : ℚ) (hx : 0 < x) (hF : isFloat64 F) (hF1 : 1 ≤ F)
    (hxF : x ≤ F * (1 - 1 / 2 ^ 53)) : roundF64 x < F := by
  have hF0 : 0 < F := by linarith
  have hxF1 : x ≤ F := by nlinarith [show (0 : ℚ) < 1 / 2 ^ 53 by positivity]
  obtain ⟨Y, hY⟩ := isFloat64_multiple x F hx hxF1 hF
  have hq := quantum_pos x
  have hYbig : (2 ^ 52 : ℚ) < (Y : ℚ) := by
    rcases le_or_lt (-1022) (Int.log 2 x) with hn | hn
    · have hz := le_div_quantum x hx hn
      have hxlt : x < F := by nlinarith [show (0 : ℚ) < 1 / 2 ^ 53 by positivity]
      have : x / quantum x < (Y : ℚ) := by
        rw [div_lt_iff₀ hq, ← hY]
        exact hxlt
      linarith
    · have hqv : quantum x = (2 : ℚ) ^ (-1074 : Int) := by
        rw [quantum_eq, max_eq_right (by omega)]
        norm_num
      have hY1 : (1 : ℚ) ≤ (Y : ℚ) * (2 : ℚ) ^ (-1074 : Int) := by
        rw [← hqv, ← hY]
        exact hF1
      have hp : (2 : ℚ) ^ (-1074 : Int) * 2 ^ 1074 = 1 := by
        rw [← zpow_natCast, ← zpow_add₀ (by norm_num)]
        norm_num
      have hYge : (2 : ℚ) ^ 1074 ≤ (Y : ℚ) := by
        have h2 : (0 : ℚ) < 2 ^ 1074 := by positivity
        calc (2 : ℚ) ^ 1074 = 1 * 2 ^ 1074 := by ring
          _ ≤ (Y : ℚ) * (2 : ℚ) ^ (-1074 : Int) * 2 ^ 1074 :=
            mul_le_mul_of_nonneg_right hY1 (le_of_lt h2)
          _ = (Y : ℚ) := by rw [mul_assoc, hp, mul_one]
      have h5 : (2 : ℚ) ^ 52 < 2 ^ 1074 := by
        exact pow_lt_pow_right₀ (by norm_num) (by norm_num)
      linarith
  have hYnat : 2 ^ 52 + 1 ≤ Y := by
    have : (2 ^ 52 : Nat) < Y := by exact_mod_cast hYbig
    omega
  have hYq : (2 ^ 52 + 1 : ℚ) ≤ (Y : ℚ) := by exact_mod_cast hYnat
  have hz : x / quantum x < ((Y : Int) : ℚ) - 1 / 2 := by
    rw [div_lt_iff₀ hq]
    push_cast
    have h1 : x ≤ (Y : ℚ) * quantum x * (1 - 1 / 2 ^ 53) := by rw [← hY]; exact hxF
    have h2 : (Y : ℚ) * quantum x * (1 - 1 / 2 ^ 53) < ((Y : ℚ) - 1 / 2) * quantum x := by
      have h3 : (Y : ℚ) * (1 - 1 / 2 ^ 53) < (Y : ℚ) - 1 / 2 := by
        have : (1 : ℚ) / 2 < (Y : ℚ) * (1 / 2 ^ 53) := by
          have h4 : (1 : ℚ) / 2 = 2 ^ 52 * (1 / 2 ^ 53) := by norm_num
          rw [h4]
          apply mul_lt_mul_of_pos_right _ (by positivity)
          linarith
        linarith
      calc (Y : ℚ) * quantum x * (1 - 1 / 2 ^ 53) = (Y : ℚ) * (1 - 1 / 2 ^ 53) * quantum x := by ring
        _ < ((Y : ℚ) - 1 / 2) * quantum x := mul_lt_mul_of_pos_right h3 hq
    linarith
  have hk := roundHalfEven_le_pred _ (Y : Int) hz
  have hkq : (roundHalfEven (x / quantum x) : ℚ) ≤ (Y : ℚ) - 1 := by exact_mod_cast hk
  unfold roundF64
  rw [if_neg (not_le.mpr hx), hY]
  calc (roundHalfEven (x / quantum x) : ℚ) * quantum x ≤ ((Y : ℚ) - 1) * quantum x :=
        mul_le_mul_of_nonneg_right hkq (le_of_lt hq)
    _ < (Y : ℚ) * quantum x := by nlinarith

/-- The largest float below 1 is `1 - 2^-53`. -/
theorem isFloat64_lt_one (u : ℚ) (hu : isFloat64 u) (h1 : u < 1) : u ≤ 1 - 1 / 2 ^ 53 := by
  by_contra hcon
  have hlt : 1 - 1 / 2 ^ 53 < u := lt_of_not_ge hcon
  have hx0 : (0 : ℚ) < 1 - 1 / 2 ^ 53 := by norm_num
  obtain ⟨Y, hY⟩ := isFloat64_multiple _ u hx0 (le_of_lt hlt) hu
  have hlog1 : -1 ≤ Int.log 2 ((1 : ℚ) - 1 / 2 ^ 53) :=
    le_log_of_two_zpow_le _ (-1) (by norm_num)
  have hlog2 : Int.log 2 ((1 : ℚ) - 1 / 2 ^ 53) < 0 :=
    log_lt_of_lt_two_zpow _ hx0 0 (by norm_num)
  have hlog : Int.log 2 ((1 : ℚ) - 1 / 2 ^ 53) = -1 := by omega
  have hq : quantum ((1 : ℚ) - 1 / 2 ^ 53) = 1 / 2 ^ 53 := by
    rw [quantum_eq, hlog]
    norm_num
  rw [hq] at hY
  have h2 : ((2 ^ 53 - 1 : Nat) : ℚ) < (Y : ℚ) := by
    have h3 : (0 : ℚ) < 2 ^ 53 := by positivity
    have h4 : (1 - 1 / 2 ^ 53 : ℚ) * 2 ^ 53 < (Y : ℚ) * (1 / 2 ^ 53) * 2 ^ 53 := by
      rw [← hY]
      exact mul_lt_mul_of_pos_right hlt h3
    have h5 : (Y : ℚ) * (1 / 2 ^ 53) * 2 ^ 53 = (Y : ℚ) := by field_simp
    rw [h5] at h4
    have h6 : ((2 ^ 53 - 1 : Nat) : ℚ) = (1 - 1 / 2 ^ 53 : ℚ) * 2 ^ 53 := by norm_num
    rw [h6]
    exact h4
  have h7 : (Y : ℚ) < ((2 ^ 53 : Nat) : ℚ) := by
    have h3 : (0 : ℚ) < 2 ^ 53 := by positivity
    have h4 : (Y : ℚ) * (1 / 2 ^ 53) * 2 ^ 53 < 1 * 2 ^ 53 := by
      rw [← hY]
      exact mul_lt_mul_of_pos_right h1 h3
    have h5 : (Y : ℚ) * (1 / 2 ^ 53) * 2 ^ 53 = (Y : ℚ) := by field_simp
    rw [h5] at h4
    push_cast
    linarith
  have h8 : 2 ^ 53 - 1 < Y := by exact_mod_cast h2
  have h9 : Y < 2 ^ 53 := by exact_mod_cast h7
  omega

/-- The conversion `int(u * float64(m))` for a sampler value `u` and a positive
integer `m`: the result lies in `[0, m - 1]`. -/
theorem scale_bounds (u : ℚ) (m : Int) (hu0 : 0 ≤ u) (hu1 : u ≤ 1 - 1 / 2 ^ 53)
    (hm : 1 ≤ m) :
    0 ≤ intOfFloat (roundF64 (u * roundF64 (m : ℚ))) ∧
    intOfFloat (roundF64 (u * roundF64 (m : ℚ))) < m := by
  have hy0 := roundF64_nonneg (u * roundF64 (m : ℚ))
  rw [intOfFloat_eq_floor _ hy0]
  refine ⟨Int.floor_nonneg.mpr hy0, ?_⟩
  rw [Int.floor_lt]
  have hmq : (1 : ℚ) ≤ (m : ℚ) := by exact_mod_cast hm
  have hF1 := one_le_roundF64 (m : ℚ) hmq
  have hF := isFloat64_roundF64 (m : ℚ)
  rcases eq_or_lt_of_le hu0 with hz | hpos
  · rw [← hz, zero_mul, roundF64_zero]
    linarith
  · have hx : 0 < u * roundF64 (m : ℚ) := mul_pos hpos (by linarith)
    have hxF : u * roundF64 (m : ℚ) ≤ roundF64 (m : ℚ) * (1 - 1 / 2 ^ 53) := by
      rw [mul_comm]
      exact mul_le_mul_of_nonneg_left hu1 (by linarith)
    have hlt := roundF64_lt _ _ hx hF hF1 hxF
    by_contra hcon
    have hge : (m : ℚ) ≤ roundF64 (u * roundF64 (m : ℚ)) := le_of_not_gt hcon
    have := roundF64_le (m : ℚ) _ (by linarith) hge (isFloat64_roundF64 _)
    linarith

theorem scale_zero (u : ℚ) : intOfFloat (roundF64 (u * roundF64 ((0 : Int) : ℚ))) = 0 := by
  simp [roundF64_zero, intOfFloat_zero]

/-! ### The sampler and the window under rounding -/

theorem isFloat64_zero : isFloat64 0 :=
  ⟨0, 0, by norm_num, by norm_num, by norm_num⟩

theorem isFloat64_pred_one : isFloat64 (1 - 1 / 2 ^ 53) := by
  refine ⟨2 ^ 53 - 1, -53, by norm_num, by norm_num, ?_⟩
  norm_num

/-- The numerator of `uniform` is exact: rounding after each of its three
operations changes nothing. -/
theorem uniform_numerator_exact (sig : Nat) (hsig : sig < 2 ^ 52) :
    roundF64 (1 + roundF64 (roundF64 (sig : ℚ) / 2 ^ 52)) = 1 + (sig : ℚ) / 2 ^ 52 := by
  have h1 : isFloat64 (sig : ℚ) :=
    ⟨sig, 0, lt_trans hsig (by norm_num), by norm_num, by norm_num⟩
  have h2 : isFloat64 ((sig : ℚ) / 2 ^ 52) := by
    refine ⟨sig, -52, lt_trans hsig (by norm_num), by norm_num, ?_⟩
    rw [zpow_neg, div_eq_mul_inv]
    norm_num
  have h3 : isFloat64 (1 + (sig : ℚ) / 2 ^ 52) := by
    refine ⟨2 ^ 52 + sig, -52, by omega, by norm_num, ?_⟩
    rw [zpow_neg]
    push_cast
    field_simp
    norm_num
  rw [roundF64_of_isFloat64 _ h1, roundF64_of_isFloat64 _ h2, roundF64_of_isFloat64 _ h3]

theorem divPow2_bounds (sig b : Nat) (hsig : sig < 2 ^ 52) (hb : 1 ≤ b) :
    0 ≤ divPow2 (1 + (sig : ℚ) / 2 ^ 52) b ∧
    divPow2 (1 + (sig : ℚ) / 2 ^ 52) b ≤ 1 - 1 / 2 ^ 53 ∧
    isFloat64 (divPow2 (1 + (sig : ℚ) / 2 ^ 52) b) := by
  unfold divPow2
  split_ifs with hlt
  · refine ⟨roundF64_nonneg _, ?_, isFloat64_roundF64 _⟩
    have hpos : (0 : ℚ) < 2 ^ b := by positivity
    have hpow : (2 : ℚ) ≤ 2 ^ b := by
      calc (2 : ℚ) = 2 ^ 1 := by norm_num
        _ ≤ 2 ^ b := pow_le_pow_right₀ (by norm_num) hb
    have hs0 : (0 : ℚ) ≤ (sig : ℚ) / 2 ^ 52 := by positivity
    have hs1 : (sig : ℚ) / 2 ^ 52 ≤ 1 - 1 / 2 ^ 52 := by
      have h1 : (sig : ℚ) ≤ 2 ^ 52 - 1 := by
        have : sig + 1 ≤ 2 ^ 52 := hsig
        have h2 : ((sig + 1 : Nat) : ℚ) ≤ ((2 ^ 52 : Nat) : ℚ) := by exact_mod_cast this
        push_cast at h2
        linarith
      rw [div_le_iff₀ (by positivity)]
      have h3 : (1 - 1 / 2 ^ 52 : ℚ) * 2 ^ 52 = 2 ^ 52 - 1 := by norm_num
      rw [h3]
      exact h1
    have hv0 : (0 : ℚ) < (1 + (sig : ℚ) / 2 ^ 52) / 2 ^ b := by positivity
    have hv1 : (1 + (sig : ℚ) / 2 ^ 52) / 2 ^ b ≤ 1 - 1 / 2 ^ 53 := by
      rw [div_le_iff₀ hpos]
      have h4 : (1 - 1 / 2 ^ 53 : ℚ) * 2 ≤ (1 - 1 / 2 ^ 53) * 2 ^ b :=
        mul_le_mul_of_nonneg_left hpow (by norm_num)
      have h5 : (1 - 1 / 2 ^ 53 : ℚ) * 2 = 2 - 1 / 2 ^ 52 := by norm_num
      linarith
    exact roundF64_le _ _ hv0 hv1 isFloat64_pred_one
  · exact ⟨le_refl _, by norm_num, isFloat64_zero⟩

theorem geometricLoop_ge (tape : Tape) (b0 b : Nat) (t : Tape)
    (h : geometricLoop b0 tape = .ok (b, t)) : b0 ≤ b := by
  induction tape generalizing b0 with
  | nil => simp [geometricLoop] at h
  | cons x rest ih =>
    unfold geometricLoop at h
    by_cases hx : (x % 2 ^ 64) % 2 = 0
    · simp only [hx, if_true] at h
      have := ih (b0 + 1) h
      omega
    · simp only [hx, if_false, Except.ok.injEq, Prod.mk.injEq] at h
      omega

theorem uniform_eq_divPow2 (tape : Tape) (u : ℚ) (t : Tape)
    (h : uniform tape = .ok (u, t)) :
    ∃ (sig b : Nat), sig < 2 ^ 52 ∧ 1 ≤ b ∧ u = divPow2 (1 + (sig : ℚ) / 2 ^ 52) b := by
  unfold uniform at h
  cases hr : randUint64 tape with
  | error f => rw [hr] at h; cases h
  | ok xt =>
    obtain ⟨x, t1⟩ := xt
    rw [hr] at h
    simp only at h
    cases hg : geometric t1 with
    | error f => rw [hg] at h; cases h
    | ok bt =>
      obtain ⟨b, t2⟩ := bt
      rw [hg] at h
      simp only [Except.ok.injEq, Prod.mk.injEq] at h
      exact ⟨x % 2 ^ 52, b, Nat.mod_lt _ (by norm_num), geometricLoop_ge t1 1 b t2 hg,
        h.1.symm⟩

/-- Every value `uniform` returns is a `float64` in `[0, 1 - 2^-53]`. -/
theorem uniform_range (tape : Tape) (u : ℚ) (t : Tape) (h : uniform tape = .ok (u, t)) :
    0 ≤ u ∧ u ≤ 1 - 1 / 2 ^ 53 ∧ isFloat64 u := by
  obtain ⟨sig, b, hsig, hb, hu⟩ := uniform_eq_divPow2 tape u t h
  rw [hu]
  exact divPow2_bounds sig b hsig hb

theorem corruptWindow_bounds (size : Int) (tape : Tape) (p n : Int) (t2 : Tape)
    (hs : 0 ≤ size) (h : corruptWindow size tape = .ok (p, n, t2)) :
    (size = 0 → p = 0 ∧ n = 0) ∧
    (0 < size → 0 ≤ p ∧ 0 ≤ n ∧ n < maxCorruptionSize ∧ p + n ≤ size - 1) := by
  unfold corruptWindow at h
  cases h1 : uniform tape with
  | error f => rw [h1] at h; cases h
  | ok ut =>
    obtain ⟨u1, t1⟩ := ut
    rw [h1] at h
    simp only at h
    cases h2 : uniform t1 with
    | error f => rw [h2] at h; cases h
    | ok ut2 =>
      obtain ⟨u2, t3⟩ := ut2
      rw [h2] at h
      simp only [Except.ok.injEq, Prod.mk.injEq] at h
      obtain ⟨hp, hn, -⟩ := h
      obtain ⟨hu1a, hu1b, -⟩ := uniform_range tape u1 t1 h1
      obtain ⟨hu2a, hu2b, -⟩ := uniform_range t1 u2 t3 h2
      have h32 : maxCorruptionSize = 32 := rfl
      constructor
      · intro h0
        subst h0
        rw [scale_zero u1] at hp hn
        have hmin : min ((0 : Int) - 0) maxCorruptionSize = 0 := by
          rw [h32]
          decide
        rw [hmin, scale_zero u2] at hn
        exact ⟨hp.symm, hn.symm⟩
      · intro hpos
        obtain ⟨hpa, hpb⟩ := scale_bounds u1 size hu1a hu1b (by omega)
        rw [hp] at hpa hpb hn
        have hm : 1 ≤ min (size - p) maxCorruptionSize := by
          rw [le_min_iff]
          omega
        obtain ⟨hna, hnb⟩ := scale_bounds u2 _ hu2a hu2b hm
        rw [hn] at hna hnb
        rw [lt_min_iff] at hnb
        omega

theorem corruptLoop_returns (k : Nat) (i : Int) (raw : List Nat) (tape : Tape)
    (hi : 0 ≤ i) (hk : i + (k : Int) ≤ (raw.length : Int)) (ht : k ≤ tape.length) :
    ∃ raw1 tape1, corruptLoop k i raw tape = .ok (raw1, tape1) := by
  induction k generalizing i raw tape with
  | zero => exact ⟨raw, tape, rfl⟩
  | succ k ih =>
    push_cast at hk
    have hlt : i.toNat < raw.length := by omega
    have hb : indexByte raw i = .ok raw[i.toNat] := by
      have : ¬ i < 0 := by omega
      simp only [indexByte, this, if_false, List.getElem?_eq_getElem hlt]
    unfold corruptLoop
    rw [hb]
    simp only
    by_cases hp : bytesContains1 jpegSoiEoiMarkers raw[i.toNat] = true
    · simp only [hp, Bool.not_true, Bool.false_eq_true, if_false]
      exact ih (i + 1) raw tape (by omega) (by omega) (by omega)
    · simp only [hp, Bool.not_false, if_true]
      cases tape with
      | nil => simp at ht
      | cons x rest =>
        simp only [randIntn]
        exact ih (i + 1) _ rest (by omega) (by rw [List.length_set]; omega)
          (by simp only [List.length_cons] at ht; omega)

theorem Corrupt_of_window (vd : VirtualDisk) (tape : Tape) (p n : Int) (t2 : Tape)
    (hw : corruptWindow (vd.Buffer.length : Int) tape = .ok (p, n, t2)) :
    Corrupt vd tape = corruptAt vd p n t2 := by
  simp only [Corrupt, hw]

theorem Corrupt_ok_window (vd : VirtualDisk) (tape : Tape) (r : CorruptResult)
    (h : Corrupt vd tape = .ok r) :
    ∃ p n t2, corruptWindow (vd.Buffer.length : Int) tape = .ok (p, n, t2) ∧
      corruptAt vd p n t2 = .ok r := by
  unfold Corrupt at h
  simp only at h
  cases hw : corruptWindow (vd.Buffer.length : Int) tape with
  | error f => rw [hw] at h; cases h
  | ok w =>
    obtain ⟨p, n, t2⟩ := w
    rw [hw] at h
    exact ⟨p, n, t2, rfl, h⟩

theorem corruptAt_zero (vd : VirtualDisk) (p : Int) (tape : Tape) :
    corruptAt vd p 0 tape = .ok { indexes := [], disk := vd, tape := tape } := by
  simp [corruptAt]

theorem corruptAt_ok (vd : VirtualDisk) (p n : Int) (tape : Tape) (r : CorruptResult)
    (hn : n ≠ 0) (h : corruptAt vd p n tape = .ok r) :
    ∃ raw t3, corruptLoop (n + 1).toNat p vd.Buffer tape = .ok (raw, t3) ∧
      r = { indexes := affectedLoop { Head := p, Tail := p + n } vd.Entries 0 [],
            disk := { vd with Buffer := raw }, tape := t3 } := by
  unfold corruptAt at h
  simp only [hn, if_false] at h
  cases hl : corruptLoop (n + 1).toNat p vd.Buffer tape with
  | error f => rw [hl] at h; cases h
  | ok rt =>
    obtain ⟨raw, t3⟩ := rt
    rw [hl] at h
    simp only [Except.ok.injEq] at h
    exact ⟨raw, t3, rfl, h.symm⟩

theorem corruptAt_returns (vd : VirtualDisk) (p n : Int) (tape : Tape)
    (hp : 0 ≤ p) (hn0 : 0 ≤ n) (hpn : p + n ≤ (vd.Buffer.length : Int) - 1)
    (ht : (n + 1).toNat ≤ tape.length) :
    ∃ r, corruptAt vd p n tape = .ok r := by
  by_cases hn : n = 0
  · subst hn
    exact ⟨_, corruptAt_zero vd p tape⟩
  · obtain ⟨raw, t3, hl⟩ := corruptLoop_returns (n + 1).toNat p vd.Buffer tape hp
      (by omega) ht
    unfold corruptAt
    simp only [hn, if_false, hl]
    exact ⟨_, rfl⟩

theorem Corrupt_returns (vd : VirtualDisk) (tape : Tape) (p n : Int) (t2 : Tape)
    (hw : corruptWindow (vd.Buffer.length : Int) tape = .ok (p, n, t2))
    (ht : (n + 1).toNat ≤ t2.length) :
    ∃ r, Corrupt vd tape = .ok r := by
  rw [Corrupt_of_window vd tape p n t2 hw]
  obtain ⟨hz, hpos⟩ := corruptWindow_bounds _ tape p n t2 (Int.ofNat_nonneg _) hw
  rcases Nat.eq_zero_or_pos vd.Buffer.length with h0 | h0
  · obtain ⟨-, hn⟩ := hz (by omega)
    subst hn
    exact ⟨_, corruptAt_zero vd p t2⟩
  · obtain ⟨hp, hn0, -, hpn⟩ := hpos (by omega)
    exact corruptAt_returns vd p n t2 hp hn0 hpn ht

theorem geometricLoop_replicate (zeros b0 : Nat) (rest : Tape) :
    geometricLoop b0 (List.replicate zeros 0 ++ 1 :: rest) = .ok (b0 + zeros, rest) := by
  induction zeros generalizing b0 with
  | zero => simp [geometricLoop]
  | succ z ih =>
    have hb : b0 + 1 + z = b0 + (z + 1) := by omega
    simp only [List.replicate_succ, List.cons_append, geometricLoop]
    simp only [Nat.zero_mod, if_true]
    exact (ih (b0 + 1)).trans (by rw [hb])

theorem uniform_drawTape (sig zeros : Nat) (rest : Tape) :
    uniform (drawTape sig zeros ++ rest) =
      .ok (divPow2 (1 + ((sig % 2 ^ 64 % 2 ^ 52 : Nat) : ℚ) / 2 ^ 52) (1 + zeros), rest) := by
  simp only [drawTape, List.cons_append, List.append_assoc, List.nil_append, uniform,
    randUint64, geometric, geometricLoop_replicate]

theorem corruptWindow_drawTape (size : Int) (s1 z1 s2 z2 : Nat) (rest : Tape) :
    ∃ p n, corruptWindow size (drawTape s1 z1 ++ (drawTape s2 z2 ++ rest)) = .ok (p, n, rest) := by
  simp only [corruptWindow, uniform_drawTape]
  exact ⟨_, _, rfl⟩

theorem Corrupt_zero_length (vd : VirtualDisk) (tape : Tape) (p : Int) (t2 : Tape)
    (hw : corruptWindow (vd.Buffer.length : Int) tape = .ok (p, 0, t2)) :
    Corrupt vd tape = .ok { indexes := [], disk := vd, tape := t2 } := by
  rw [Corrupt_of_window vd tape p 0 t2 hw, corruptAt_zero]

theorem geometricLoop_fault (tape : Tape) (b0 : Nat) (f : Fault)
    (h : geometricLoop b0 tape = .error f) : f = .starved := by
  induction tape generalizing b0 with
  | nil => simp only [geometricLoop, Except.error.injEq] at h; exact h.symm
  | cons x rest ih =>
    unfold geometricLoop at h
    by_cases hx : (x % 2 ^ 64) % 2 = 0
    · simp only [hx, if_true] at h
      exact ih (b0 + 1) h
    · simp only [hx, if_false] at h
      cases h

theorem uniform_fault (tape : Tape) (f : Fault) (h : uniform tape = .error f) :
    f = .starved := by
  unfold uniform at h
  cases tape with
  | nil => simp only [randUint64, Except.error.injEq] at h; exact h.symm
  | cons x t1 =>
    simp only [randUint64] at h
    cases hg : geometric t1 with
    | error g =>
      rw [hg] at h
      simp only [Except.error.injEq] at h
      subst h
      exact geometricLoop_fault t1 1 g hg
    | ok bt => rw [hg] at h; cases h

theorem corruptWindow_fault (size : Int) (tape : Tape) (f : Fault)
    (h : corruptWindow size tape = .error f) : f = .starved := by
  unfold corruptWindow at h
  cases h1 : uniform tape with
  | error g =>
    rw [h1] at h
    simp only [Except.error.injEq] at h
    subst h
    exact uniform_fault tape g h1
  | ok ut =>
    obtain ⟨u1, t1⟩ := ut
    rw [h1] at h
    simp only at h
    cases h2 : uniform t1 with
    | error g =>
      rw [h2] at h
      simp only [Except.error.injEq] at h
      subst h
      exact uniform_fault t1 g h2
    | ok ut2 => rw [h2] at h; cases h

/-! ## Claims about `Corrupt` -/

/-- C4, evaluated at its failing input. On the disk holding files of 10, 2 and
10 bytes, with draws giving p = 9 and n = 5, Corrupt overwrites positions 9
to 14, which include both bytes of file 1 = [10,12), and returns [0, 2]:
file 1 is not reported. -/
theorem C4_corrupt_misses_contained_file :
    addFiles NewVirtualDisk containmentFiles = some containmentDisk ∧
    corruptWindow (containmentDisk.Buffer.length : Int) containmentTape =
      .ok (9, 5, List.replicate 6 7) ∧
    Corrupt containmentDisk containmentTape =
      .ok { indexes := [0, 2],
            disk := { Entries := containmentDisk.Entries,
                      Buffer := List.replicate 9 0 ++ (List.replicate 6 7 ++ List.replicate 7 0) },
            tape := [] } ∧
    containmentDisk.Entries[1]? = some ⟨10, 12⟩ ∧
    (∀ q : Int, 10 ≤ q → q < 12 → (9 : Int) ≤ q ∧ q ≤ 9 + 5) ∧
    (1 : Int) ∉ [(0 : Int), 2] := by
  refine ⟨by decide, by with_unfolding_all rfl, by with_unfolding_all rfl, by decide, ?_,
    by decide⟩
  intro q h1 h2
  omega

/-- C5. For every disk state and every outcome of the random draws, a Corrupt
call returns once the tape holds the draws it asks for, and every buffer
position whose byte was 0xFF, 0xD8 or 0xD9 before the call holds the same
value after the call. -/
theorem C5_corrupt_preserves_protected_bytes (vd : VirtualDisk) (tape : Tape) :
    (∀ p n t2, corruptWindow (vd.Buffer.length : Int) tape = .ok (p, n, t2) →
      (n + 1).toNat ≤ t2.length → ∃ r, Corrupt vd tape = .ok r) ∧
    (∀ r, Corrupt vd tape = .ok r →
      ∀ (j : Nat) (b : Nat), vd.Buffer[j]? = some b →
        (b = 0xFF ∨ b = 0xD8 ∨ b = 0xD9) → r.disk.Buffer[j]? = some b) := by
  refine ⟨fun p n t2 hw ht => Corrupt_returns vd tape p n t2 hw ht, ?_⟩
  intro r h j b hb hprot
  obtain ⟨p, n, t2, -, hat⟩ := Corrupt_ok_window vd tape r h
  by_cases hn : n = 0
  · subst hn
    rw [corruptAt_zero] at hat
    cases hat
    exact hb
  · obtain ⟨raw, t3, hl, hr⟩ := corruptAt_ok vd p n t2 r hn hat
    subst hr
    have hc : bytesContains1 jpegSoiEoiMarkers b = true := by
      rcases hprot with h1 | h1 | h1 <;> subst h1 <;> decide
    exact (corruptLoop_spec _ _ _ _ _ _ hl).2.2 j b hb hc

/-- C5, at a concrete run: the window [2,5] of a 6-byte disk covers the bytes
0xFF and 0xD9 at positions 4 and 5; position 4 still holds 0xFF afterwards. -/
theorem C5_corrupt_preserves_protected_bytes_witness :
    Corrupt markerDisk markerTape =
      .ok { indexes := [0], disk := markerDiskAfter, tape := [] } ∧
    markerDisk.Buffer[4]? = some 0xFF ∧ markerDiskAfter.Buffer[4]? = some 0xFF :=
  ⟨by with_unfolding_all rfl, by decide,
    (C5_corrupt_preserves_protected_bytes markerDisk markerTape).2
      { indexes := [0], disk := markerDiskAfter, tape := [] }
      (by with_unfolding_all rfl) 4 0xFF (by decide) (Or.inl rfl)⟩

/-- C6. The frame of Corrupt: with p and n the drawn offset and length, the
call returns once the tape holds n+1 byte draws; a call that returns leaves
Entries and the Buffer length unchanged and leaves every byte outside the
inclusive window [p, p+n] unchanged; and when n = 0 the call returns the empty
list and changes no byte at all. -/
theorem C6_corrupt_frame (vd : VirtualDisk) (tape : Tape) (p n : Int) (t2 : Tape)
    (hw : corruptWindow (vd.Buffer.length : Int) tape = .ok (p, n, t2)) :
    ((n + 1).toNat ≤ t2.length → ∃ r, Corrupt vd tape = .ok r) ∧
    (∀ r, Corrupt vd tape = .ok r →
      r.disk.Entries = vd.Entries ∧
      r.disk.Buffer.length = vd.Buffer.length ∧
      (∀ j : Nat, ((j : Int) < p ∨ p + n < (j : Int)) →
        r.disk.Buffer[j]? = vd.Buffer[j]?)) ∧
    (n = 0 → Corrupt vd tape = .ok { indexes := [], disk := vd, tape := t2 }) := by
  refine ⟨fun ht => Corrupt_returns vd tape p n t2 hw ht, ?_, ?_⟩
  · intro r hat
    rw [Corrupt_of_window vd tape p n t2 hw] at hat
    by_cases hn : n = 0
    · subst hn
      rw [corruptAt_zero] at hat
      cases hat
      exact ⟨rfl, rfl, fun _ _ => rfl⟩
    · obtain ⟨raw, t3, hl, hr⟩ := corruptAt_ok vd p n t2 r hn hat
      subst hr
      obtain ⟨h1, h2, -⟩ := corruptLoop_spec _ _ _ _ _ _ hl
      refine ⟨rfl, h1, ?_⟩
      intro j hj
      apply h2
      omega
  · intro hn
    subst hn
    exact Corrupt_zero_length vd tape p t2 hw

/-- C6, at four concrete runs: on the 6-byte marker disk with window [2,5],
position 1 is untouched; on a one-byte disk the drawn length is 0 and the
call returns the empty list and the same disk; on the 6-byte disk where the
product `u1 * 6` rounds up to 2.0 the window is [2,5], position 5 is written
and position 1 is untouched; on the 3-byte disk where `u1 * 3` is a tie
rounding to 2.0 the window is p = 2, n = 0 and nothing changes. -/
theorem C6_corrupt_frame_witness :
    (corruptWindow (markerDisk.Buffer.length : Int) markerTape = .ok (2, 3, [9, 9]) ∧
      Corrupt markerDisk markerTape =
        .ok { indexes := [0], disk := markerDiskAfter, tape := [] } ∧
      markerDiskAfter.Buffer[1]? = markerDisk.Buffer[1]?) ∧
    (corruptWindow (oneByteDisk.Buffer.length : Int) zeroLengthTape = .ok (0, 0, [9]) ∧
      Corrupt oneByteDisk zeroLengthTape =
        .ok { indexes := [], disk := oneByteDisk, tape := [9] }) ∧
    (corruptWindow (roundingDisk.Buffer.length : Int) roundingTape =
        .ok (2, 3, List.replicate 4 7) ∧
      Corrupt roundingDisk roundingTape =
        .ok { indexes := [1], disk := roundingDiskAfter, tape := [] } ∧
      roundingDiskAfter.Buffer[5]? = some 7 ∧
      roundingDiskAfter.Buffer[1]? = roundingDisk.Buffer[1]?) ∧
    (corruptWindow (threeByteDisk.Buffer.length : Int) tieTape = .ok (2, 0, [9]) ∧
      Corrupt threeByteDisk tieTape =
        .ok { indexes := [], disk := threeByteDisk, tape := [9] }) :=
  ⟨⟨by with_unfolding_all rfl, by with_unfolding_all rfl,
      ((C6_corrupt_frame markerDisk markerTape 2 3 [9, 9] (by with_unfolding_all rfl)).2.1
        { indexes := [0], disk := markerDiskAfter, tape := [] }
        (by with_unfolding_all rfl)).2.2 1 (Or.inl (by decide))⟩,
    ⟨by with_unfolding_all rfl,
      (C6_corrupt_frame oneByteDisk zeroLengthTape 0 0 [9] (by with_unfolding_all rfl)).2.2
        rfl⟩,
    ⟨by with_unfolding_all rfl, by with_unfolding_all rfl, by decide,
      ((C6_corrupt_frame roundingDisk roundingTape 2 3 (List.replicate 4 7)
        (by with_unfolding_all rfl)).2.1
        { indexes := [1], disk := roundingDiskAfter, tape := [] }
        (by with_unfolding_all rfl)).2.2 1 (Or.inl (by decide))⟩,
    ⟨by with_unfolding_all rfl,
      (C6_corrupt_frame threeByteDisk tieTape 2 0 [9] (by with_unfolding_all rfl)).2.2 rfl⟩⟩

/-- C7. Corrupt on an empty disk: whenever the two sampler calls are served,
the computed offset p and length n are both 0 and Corrupt returns the empty
list with the disk unchanged (and no byte draw consumed); it never faults with
an out-of-range access; and it does return once the tape holds the draws of
two sampler calls. -/
theorem C7_corrupt_empty_disk (vd : VirtualDisk) (tape : Tape) (h : vd.Buffer = []) :
    (∀ p n t2, corruptWindow (vd.Buffer.length : Int) tape = .ok (p, n, t2) →
      p = 0 ∧ n = 0 ∧ Corrupt vd tape = .ok { indexes := [], disk := vd, tape := t2 }) ∧
    (∀ r, Corrupt vd tape = .ok r → r.indexes = [] ∧ r.disk = vd) ∧
    Corrupt vd tape ≠ .error .outOfRange ∧
    (∀ s1 z1 s2 z2 rest, tape = drawTape s1 z1 ++ (drawTape s2 z2 ++ rest) →
      Corrupt vd tape = .ok { indexes := [], disk := vd, tape := rest }) := by
  have hlen : (vd.Buffer.length : Int) = 0 := by simp [h]
  have key : ∀ p n t2, corruptWindow (vd.Buffer.length : Int) tape = .ok (p, n, t2) →
      p = 0 ∧ n = 0 ∧ Corrupt vd tape = .ok { indexes := [], disk := vd, tape := t2 } := by
    intro p n t2 hw
    obtain ⟨hp, hn⟩ := (corruptWindow_bounds _ tape p n t2 (by omega) hw).1 hlen
    subst hp; subst hn
    exact ⟨rfl, rfl, (Corrupt_zero_length vd tape 0 t2 hw)⟩
  refine ⟨key, ?_, ?_, ?_⟩
  · intro r hr
    obtain ⟨p, n, t2, hw, -⟩ := Corrupt_ok_window vd tape r hr
    obtain ⟨-, -, hc⟩ := key p n t2 hw
    rw [hc] at hr
    cases hr
    exact ⟨rfl, rfl⟩
  · intro hf
    cases hw : corruptWindow (vd.Buffer.length : Int) tape with
    | error f =>
      have hs := corruptWindow_fault _ tape f hw
      subst hs
      simp only [Corrupt, hw] at hf
      cases hf
    | ok w =>
      obtain ⟨p, n, t2⟩ := w
      obtain ⟨-, -, hc⟩ := key p n t2 hw
      rw [hc] at hf
      cases hf
  · intro s1 z1 s2 z2 rest ht
    obtain ⟨p, n, hw⟩ := corruptWindow_drawTape (vd.Buffer.length : Int) s1 z1 s2 z2 rest
    rw [← ht] at hw
    exact (key p n rest hw).2.2

/-- C7, at the new disk with the draws of two sampler calls and nothing else. -/
theorem C7_corrupt_empty_disk_witness :
    NewVirtualDisk.Buffer = [] ∧
    Corrupt NewVirtualDisk (drawTape 5 0 ++ (drawTape 6 2 ++ [])) =
      .ok { indexes := [], disk := NewVirtualDisk, tape := [] } :=
  ⟨rfl, (C7_corrupt_empty_disk NewVirtualDisk (drawTape 5 0 ++ (drawTape 6 2 ++ [])) rfl).2.2.2
    5 0 6 2 [] rfl⟩

/-- C10. With p and n the drawn offset and length and n > 0, Corrupt returns
once the tape holds n+1 byte draws, and the list it returns is strictly
increasing and holds exactly the indices i < len(Entries) for which
`Entry{Head: p, Tail: p+n}.Overlap(Entries[i])` is true. With entries [0,10),
[10,20), [20,30) the area [5,15) yields [0, 1] and the area [8,9) yields [0]. -/
theorem C10_corrupt_returns_overlapping_indexes (vd : VirtualDisk) (tape : Tape)
    (p n : Int) (t2 : Tape)
    (hw : corruptWindow (vd.Buffer.length : Int) tape = .ok (p, n, t2)) (hn : 0 < n) :
    ((n + 1).toNat ≤ t2.length → ∃ r, Corrupt vd tape = .ok r) ∧
    (∀ r, Corrupt vd tape = .ok r →
      r.indexes.Pairwise (· < ·) ∧
      ∀ i : Int, i ∈ r.indexes ↔
        ∃ (k : Nat) (e : Entry), i = (k : Int) ∧ vd.Entries[k]? = some e ∧
          Entry.Overlap { Head := p, Tail := p + n } e = true) ∧
    (corruptWindow (tenTenTenDisk.Buffer.length : Int) tapeFiveFifteen =
        .ok (5, 10, List.replicate 11 7) ∧
      ∃ d t, Corrupt tenTenTenDisk tapeFiveFifteen =
        .ok { indexes := [0, 1], disk := d, tape := t }) ∧
    (corruptWindow (tenTenTenDisk.Buffer.length : Int) tapeEightNine =
        .ok (8, 1, List.replicate 2 7) ∧
      ∃ d t, Corrupt tenTenTenDisk tapeEightNine =
        .ok { indexes := [0], disk := d, tape := t }) := by
  refine ⟨fun ht => Corrupt_returns vd tape p n t2 hw ht, ?_,
    ⟨by with_unfolding_all rfl, _, _, by with_unfolding_all rfl⟩,
    ⟨by with_unfolding_all rfl, _, _, by with_unfolding_all rfl⟩⟩
  intro r hr
  rw [Corrupt_of_window vd tape p n t2 hw] at hr
  obtain ⟨raw, t3, -, hr1⟩ := corruptAt_ok vd p n t2 r (by omega) hr
  subst hr1
  refine ⟨affectedLoop_sorted _ _ 0 [] List.Pairwise.nil (by simp), ?_⟩
  intro i
  simp only [affectedLoop_mem, List.not_mem_nil, false_or, zero_add]
  constructor
  · rintro ⟨k, e, hk, ho, hi⟩
    exact ⟨k, e, hi, hk, ho⟩
  · rintro ⟨k, e, hi, hk, ho⟩
    exact ⟨k, e, hk, ho, hi⟩

/-- C10, at two concrete runs: the area [8,9) on the three-file disk; and the
6-byte disk where the product `u1 * 6` rounds up to 2.0, so that the area is
[2,5) and the returned list is [1]. -/
theorem C10_corrupt_returns_overlapping_indexes_witness :
    (corruptWindow (tenTenTenDisk.Buffer.length : Int) tapeEightNine =
        .ok (8, 1, List.replicate 2 7) ∧
      ∃ r, Corrupt tenTenTenDisk tapeEightNine = .ok r) ∧
    (corruptWindow (roundingDisk.Buffer.length : Int) roundingTape =
        .ok (2, 3, List.replicate 4 7) ∧
      Corrupt roundingDisk roundingTape =
        .ok { indexes := [1], disk := roundingDiskAfter, tape := [] } ∧
      ((1 : Int) ∈ [(1 : Int)] ↔
        ∃ (k : Nat) (e : Entry), (1 : Int) = (k : Int) ∧ roundingDisk.Entries[k]? = some e ∧
          Entry.Overlap { Head := 2, Tail := 2 + 3 } e = true)) :=
  ⟨⟨by with_unfolding_all rfl,
      (C10_corrupt_returns_overlapping_indexes tenTenTenDisk tapeEightNine 8 1
        (List.replicate 2 7) (by with_unfolding_all rfl) (by decide)).1 (by decide)⟩,
    ⟨by with_unfolding_all rfl, by with_unfolding_all rfl,
      ((C10_corrupt_returns_overlapping_indexes roundingDisk roundingTape 2 3
        (List.replicate 4 7) (by with_unfolding_all rfl) (by decide)).2.1
        { indexes := [1], disk := roundingDiskAfter, tape := [] }
        (by with_unfolding_all rfl)).2 1⟩⟩

/-! ## The invariant of the disk -/

theorem laidOut_le (es : List Entry) (lo hi : Int) (h : laidOut lo hi es) : lo ≤ hi := by
  induction es generalizing lo with
  | nil => exact h
  | cons e es ih =>
    obtain ⟨h1, h2, h3⟩ := h
    have := ih _ h3
    omega

theorem laidOut_mono (es : List Entry) (lo hi hi1 : Int) (h : laidOut lo hi es)
    (hh : hi ≤ hi1) : laidOut lo hi1 es := by
  induction es generalizing lo with
  | nil => simp only [laidOut] at h ⊢; omega
  | cons e es ih =>
    obtain ⟨h1, h2, h3⟩ := h
    exact ⟨h1, h2, ih _ h3⟩

theorem laidOut_append (es : List Entry) (lo hi : Int) (e : Entry) (h : laidOut lo hi es)
    (h1 : hi ≤ e.Head) (h2 : e.Head ≤ e.Tail) : laidOut lo e.Tail (es ++ [e]) := by
  induction es generalizing lo with
  | nil =>
    simp only [laidOut] at h
    simp only [List.nil_append, laidOut]
    omega
  | cons e0 es ih =>
    obtain ⟨h3, h4, h5⟩ := h
    exact ⟨h3, h4, ih _ h5⟩

theorem laidOut_get (es : List Entry) (lo hi : Int) (h : laidOut lo hi es) (i : Nat)
    (e : Entry) (he : es[i]? = some e) : lo ≤ e.Head ∧ e.Head ≤ e.Tail ∧ e.Tail ≤ hi := by
  induction es generalizing lo i with
  | nil => simp at he
  | cons e0 es ih =>
    obtain ⟨h1, h2, h3⟩ := h
    cases i with
    | zero =>
      simp only [List.getElem?_cons_zero, Option.some.injEq] at he
      subst he
      exact ⟨h1, h2, laidOut_le es _ _ h3⟩
    | succ i =>
      simp only [List.getElem?_cons_succ] at he
      have := ih _ h3 i he
      omega

theorem laidOut_next (es : List Entry) (lo hi : Int) (h : laidOut lo hi es) (i : Nat)
    (e e1 : Entry) (he : es[i]? = some e) (he1 : es[i + 1]? = some e1) :
    e.Tail ≤ e1.Head := by
  induction es generalizing lo i with
  | nil => simp at he
  | cons e0 es ih =>
    obtain ⟨h1, h2, h3⟩ := h
    cases i with
    | zero =>
      simp only [List.getElem?_cons_zero, Option.some.injEq] at he
      simp only [List.getElem?_cons_succ] at he1
      subst he
      exact (laidOut_get es _ _ h3 0 e1 he1).1
    | succ i =>
      simp only [List.getElem?_cons_succ] at he he1
      exact ih _ h3 i he he1

theorem AddFile_eq (vd : VirtualDisk) (r : Reader) :
    (AddFile vd r).1.Buffer = vd.Buffer ++ r.bytes ∧
    ((AddFile vd r).1.Entries = vd.Entries ∨
      (AddFile vd r).1.Entries = vd.Entries ++
        [{ Head := (vd.Buffer.length : Int),
           Tail := (r.bytes.length : Int) + (vd.Buffer.length : Int) }]) := by
  cases hr : r.err with
  | none => rw [AddFile_ok vd r hr]; exact ⟨rfl, Or.inr rfl⟩
  | some e => rw [AddFile_fail vd r e hr]; exact ⟨rfl, Or.inl rfl⟩

theorem AddFile_laidOut (vd : VirtualDisk) (r : Reader)
    (h : laidOut 0 (vd.Buffer.length : Int) vd.Entries) :
    laidOut 0 ((AddFile vd r).1.Buffer.length : Int) (AddFile vd r).1.Entries := by
  obtain ⟨hB, hE⟩ := AddFile_eq vd r
  rw [hB]
  rcases hE with hE | hE
  · rw [hE]
    exact laidOut_mono _ _ _ _ h (by simp)
  · rw [hE]
    have := laidOut_append vd.Entries 0 (vd.Buffer.length : Int)
      { Head := (vd.Buffer.length : Int),
        Tail := (r.bytes.length : Int) + (vd.Buffer.length : Int) } h (le_refl _)
      (by simp)
    refine laidOut_mono _ _ _ _ this ?_
    simp only [List.length_append, Nat.cast_add]
    omega

theorem Corrupt_laidOut (vd : VirtualDisk) (tape : Tape) (res : CorruptResult)
    (hc : Corrupt vd tape = .ok res)
    (h : laidOut 0 (vd.Buffer.length : Int) vd.Entries) :
    laidOut 0 (res.disk.Buffer.length : Int) res.disk.Entries := by
  obtain ⟨p, n, t2, -, hat⟩ := Corrupt_ok_window vd tape res hc
  by_cases hn : n = 0
  · subst hn
    rw [corruptAt_zero] at hat
    cases hat
    exact h
  · obtain ⟨raw, t3, hl, hr⟩ := corruptAt_ok vd p n t2 res hn hat
    subst hr
    have hlen := (corruptLoop_spec _ _ _ _ _ _ hl).1
    simp only [hlen]
    exact h

theorem runCalls_laidOut (calls : List Call) (vd vd1 : VirtualDisk)
    (h : laidOut 0 (vd.Buffer.length : Int) vd.Entries)
    (hrun : runCalls vd calls = some vd1) :
    laidOut 0 (vd1.Buffer.length : Int) vd1.Entries := by
  induction calls generalizing vd with
  | nil =>
    simp only [runCalls, Option.some.injEq] at hrun
    subst hrun
    exact h
  | cons c rest ih =>
    cases c with
    | addFile r =>
      simp only [runCalls] at hrun
      exact ih _ (AddFile_laidOut vd r h) hrun
    | reset =>
      simp only [runCalls] at hrun
      exact ih _ (by simp [Reset, laidOut]) hrun
    | corrupt tape =>
      simp only [runCalls] at hrun
      cases hc : Corrupt vd tape with
      | error f => rw [hc] at hrun; cases hrun
      | ok res =>
        rw [hc] at hrun
        exact ih _ (Corrupt_laidOut vd tape res hc h) hrun

/-- C11. In every state reached from an empty disk by any sequence of AddFile
calls (successful or failing), Reset calls and Corrupt calls, every entry
satisfies 0 <= Head <= Tail <= len(Buffer), and consecutive entries satisfy
Entries[i].Tail <= Entries[i+1].Head. -/
theorem C11_entries_well_formed (calls : List Call) (vd : VirtualDisk)
    (hrun : runCalls NewVirtualDisk calls = some vd) :
    (∀ (i : Nat) (e : Entry), vd.Entries[i]? = some e →
      0 ≤ e.Head ∧ e.Head ≤ e.Tail ∧ e.Tail ≤ (vd.Buffer.length : Int)) ∧
    (∀ (i : Nat) (e e1 : Entry), vd.Entries[i]? = some e → vd.Entries[i + 1]? = some e1 →
      e.Tail ≤ e1.Head) := by
  have h := runCalls_laidOut calls NewVirtualDisk vd (by simp [NewVirtualDisk, laidOut]) hrun
  exact ⟨fun i e he => laidOut_get _ _ _ h i e he,
    fun i e e1 he he1 => laidOut_next _ _ _ h i e e1 he he1⟩

/-- C11, at a concrete run that mixes failing and successful AddFile calls
with a Corrupt and a Reset: the second entry [3,5) starts after the first
entry [0,1) ends and lies inside the 5-byte buffer. -/
theorem C11_entries_well_formed_witness :
    runCalls NewVirtualDisk mixedCalls = some mixedCallsDisk ∧
    ((0 : Int) ≤ 3 ∧ (3 : Int) ≤ 5 ∧ (5 : Int) ≤ (mixedCallsDisk.Buffer.length : Int)) ∧
    (1 : Int) ≤ 3 :=
  ⟨by with_unfolding_all rfl,
    (C11_entries_well_formed mixedCalls mixedCallsDisk (by with_unfolding_all rfl)).1 1 ⟨3, 5⟩
      (by decide),
    (C11_entries_well_formed mixedCalls mixedCallsDisk (by with_unfolding_all rfl)).2 0 ⟨0, 1⟩
      ⟨3, 5⟩ (by decide) (by decide)⟩

/-- C12. A failing AddFile is not rolled back: for every disk state and every
source that delivers some bytes and then fails, AddFile returns that error,
leaves Entries unchanged, and leaves the Buffer equal to its previous
contents followed by the bytes delivered before the failure. -/
theorem C12_addFile_failure_keeps_bytes (vd : VirtualDisk) (r : Reader) (e : String)
    (h : r.err = some e) :
    (AddFile vd r).2 = some e ∧
    (AddFile vd r).1.Entries = vd.Entries ∧
    (AddFile vd r).1.Buffer = vd.Buffer ++ r.bytes := by
  rw [AddFile_fail vd r e h]
  exact ⟨rfl, rfl, rfl⟩

/-- C12, at a concrete call: a source delivering the bytes 8, 9 and then
failing, on the three-file disk. -/
theorem C12_addFile_failure_keeps_bytes_witness :
    failingReader.err = some "read error" ∧
    (AddFile threeFilesDisk failingReader).2 = some "read error" ∧
    (AddFile threeFilesDisk failingReader).1.Entries = threeFilesDisk.Entries ∧
    (AddFile threeFilesDisk failingReader).1.Buffer = [1, 2, 5, 6, 7, 8, 9] :=
  ⟨rfl, C12_addFile_failure_keeps_bytes threeFilesDisk failingReader "read error" rfl⟩

/-- C3. In every state of the disk (every state reached from a new disk by
AddFile, Reset and Corrupt calls) and for every integer index, GetFile
returns the not-found result exactly when index < 0 or index >= len(Entries);
otherwise it returns the bytes Buffer[Entries[index].Head : Entries[index].Tail]
and a copy of Entries[index]; in both cases the disk is unchanged. -/
theorem C3_getFile_not_found_or_slice (calls : List Call) (vd : VirtualDisk)
    (hrun : runCalls NewVirtualDisk calls = some vd) (slack : List Nat) (index : Int) :
    (GetFile vd slack index = .ok (none, vd) ↔
      (index < 0 ∨ index ≥ (vd.Entries.length : Int))) ∧
    (¬ (index < 0 ∨ index ≥ (vd.Entries.length : Int)) →
      ∃ e, vd.Entries[index.toNat]? = some e ∧
        GetFile vd slack index =
          .ok (some ((vd.Buffer.drop e.Head.toNat).take (e.Tail - e.Head).toNat, e), vd)) ∧
    (∀ res vd1, GetFile vd slack index = .ok (res, vd1) → vd1 = vd) := by
  obtain ⟨h1, h2, h3⟩ := GetFile_spec vd slack index
  refine ⟨h1, ?_, h3⟩
  intro hin
  have hlaid := runCalls_laidOut calls NewVirtualDisk vd (by simp [NewVirtualDisk, laidOut]) hrun
  have hi : index.toNat < vd.Entries.length := by omega
  have he : vd.Entries[index.toNat]? = some vd.Entries[index.toNat] :=
    List.getElem?_eq_getElem hi
  obtain ⟨ha, hb, hc⟩ := laidOut_get _ _ _ hlaid index.toNat _ he
  exact ⟨_, he, h2 _ (by omega) he ha hb hc⟩

/-- C3, at the state reached by a run that mixes failing and successful
AddFile calls with a Corrupt and a Reset: index 1 returns the bytes 4, 5 of
the entry [3,5), whatever lies past the end of the buffer. -/
theorem C3_getFile_not_found_or_slice_witness :
    runCalls NewVirtualDisk mixedCalls = some mixedCallsDisk ∧
    ∃ e, mixedCallsDisk.Entries[(1 : Int).toNat]? = some e ∧
      GetFile mixedCallsDisk [9, 9] 1 =
        .ok (some ((mixedCallsDisk.Buffer.drop e.Head.toNat).take (e.Tail - e.Head).toNat, e),
          mixedCallsDisk) :=
  ⟨by with_unfolding_all rfl,
    (C3_getFile_not_found_or_slice mixedCalls mixedCallsDisk (by with_unfolding_all rfl)
      [9, 9] 1).2.1 (by decide)⟩

/-- C13. For every disk state, after Reset the Buffer length is 0 and the
Entries list is empty, and GetFile(0) right after Reset returns not-found. -/
theorem C13_reset_then_getFile (vd : VirtualDisk) :
    (∀ slack : List Nat, GetFile (Reset vd) slack 0 = .ok (none, Reset vd)) ∧
    (Reset vd).Buffer.length = 0 ∧
    (Reset vd).Entries = [] := by
  refine ⟨?_, rfl, rfl⟩
  intro slack
  simp [GetFile, Reset]

/-- C19. For a non-empty query range self, `self.Overlap(other)` is true
exactly when the two half-open ranges share a byte index and self does not
strictly contain other; so Overlap has no false positive, and strict
containment is its only false negative. -/
theorem C19_overlap_exact (self other : Entry) (hne : self.Head < self.Tail) :
    (self.Overlap other = true ↔
      (∃ q : Int, self.Head ≤ q ∧ q < self.Tail ∧ other.Head ≤ q ∧ q < other.Tail) ∧
      ¬ (self.Head < other.Head ∧ other.Tail < self.Tail)) ∧
    (self.Overlap other = true →
      ∃ q : Int, self.Head ≤ q ∧ q < self.Tail ∧ other.Head ≤ q ∧ q < other.Tail) ∧
    ((∃ q : Int, self.Head ≤ q ∧ q < self.Tail ∧ other.Head ≤ q ∧ q < other.Tail) →
      self.Overlap other = false → self.Head < other.Head ∧ other.Tail < self.Tail) := by
  have hshare : (∃ q : Int, self.Head ≤ q ∧ q < self.Tail ∧ other.Head ≤ q ∧ q < other.Tail) ↔
      (self.Head < other.Tail ∧ other.Head < self.Tail ∧ other.Head < other.Tail) := by
    constructor
    · rintro ⟨q, h1, h2, h3, h4⟩
      omega
    · rintro ⟨h1, h2, h3⟩
      exact ⟨max self.Head other.Head, le_max_left _ _, by omega, le_max_right _ _, by omega⟩
  rw [hshare, Overlap_true_iff]
  refine ⟨?_, ?_, ?_⟩
  · constructor
    · intro h
      omega
    · intro h
      omega
  · intro h
    omega
  · intro h hf
    rw [Bool.eq_false_iff, Ne, Overlap_true_iff] at hf
    omega

/-- C19, at a concrete pair: [5,15) against [10,20). -/
theorem C19_overlap_exact_witness :
    Entry.Overlap ⟨5, 15⟩ ⟨10, 20⟩ = true ∧
    ∃ q : Int, (⟨5, 15⟩ : Entry).Head ≤ q ∧ q < (⟨5, 15⟩ : Entry).Tail ∧
      (⟨10, 20⟩ : Entry).Head ≤ q ∧ q < (⟨10, 20⟩ : Entry).Tail :=
  ⟨by decide, (C19_overlap_exact ⟨5, 15⟩ ⟨10, 20⟩ (by decide)).2.1 (by decide)⟩

/-! ## The sampler range and the window bounds -/

theorem samplerValue_bounds (sig b : Nat) (hsig : sig < 2 ^ 52) :
    (1 : ℚ) / 2 ^ b ≤ samplerValue sig b ∧ samplerValue sig b < 2 / 2 ^ b := by
  have hpos : (0 : ℚ) < 2 ^ b := by positivity
  have h0 : (0 : ℚ) ≤ (sig : ℚ) / 2 ^ 52 := by positivity
  have h1 : (sig : ℚ) / 2 ^ 52 < 1 := by
    rw [div_lt_one (by positivity)]
    exact_mod_cast hsig
  unfold samplerValue
  constructor
  · exact div_le_div_of_nonneg_right (by linarith) (le_of_lt hpos)
  · exact div_lt_div_of_pos_right (by linarith) hpos

/-- The exact-arithmetic counterpart of `scale_bounds`: the floor of the exact
product `u * m`. -/
theorem floor_mul_bounds (u : ℚ) (m : Int) (hu0 : 0 < u) (hu1 : u < 1) (hm : 0 < m) :
    0 ≤ ⌊u * (m : ℚ)⌋ ∧ ⌊u * (m : ℚ)⌋ < m := by
  have hmq : (0 : ℚ) < (m : ℚ) := by exact_mod_cast hm
  have hx : 0 ≤ u * (m : ℚ) := le_of_lt (mul_pos hu0 hmq)
  refine ⟨Int.floor_nonneg.mpr hx, ?_⟩
  rw [Int.floor_lt]
  calc u * (m : ℚ) < 1 * (m : ℚ) := mul_lt_mul_of_pos_right hu1 hmq
    _ = (m : ℚ) := one_mul _

/-- Up to `b = 1022` the quotient in `uniform` is exact. -/
theorem divPow2_exact (sig b : Nat) (hsig : sig < 2 ^ 52) (hb : b ≤ 1022) :
    divPow2 (1 + (sig : ℚ) / 2 ^ 52) b = samplerValue sig b := by
  have hf : isFloat64 ((1 + (sig : ℚ) / 2 ^ 52) / 2 ^ b) := by
    refine ⟨2 ^ 52 + sig, -((52 + b : Nat) : Int), by omega, by omega, ?_⟩
    rw [zpow_neg, zpow_natCast, pow_add]
    push_cast
    field_simp
    norm_num
  unfold divPow2
  rw [if_pos (by omega), roundF64_of_isFloat64 _ hf]
  rfl

theorem uniform_drawTape_value (sig b : Nat) (hsig : sig < 2 ^ 52) (hb : 1 ≤ b)
    (hb2 : b ≤ 1022) (rest : Tape) :
    uniform (drawTape sig (b - 1) ++ rest) = .ok (samplerValue sig b, rest) := by
  have h0 : sig % 2 ^ 64 = sig := Nat.mod_eq_of_lt (lt_trans hsig (by norm_num))
  have h1 : sig % 2 ^ 64 % 2 ^ 52 = sig := by
    rw [h0, Nat.mod_eq_of_lt hsig]
  have h2 : 1 + (b - 1) = b := by omega
  rw [uniform_drawTape, h1, h2, divPow2_exact sig b hsig hb2]

theorem uniform_drawTape_overflow (sig b : Nat) (hb : 1024 ≤ b) (rest : Tape) :
    uniform (drawTape sig (b - 1) ++ rest) = .ok (0, rest) := by
  have h2 : 1 + (b - 1) = b := by omega
  rw [uniform_drawTape, h2]
  unfold divPow2
  rw [if_neg (by omega)]

theorem corruptWindow_eq_windowOf (size : Int) (tape : Tape) (p n : Int) (t2 : Tape)
    (h : corruptWindow size tape = .ok (p, n, t2)) :
    ∃ u1 u2 t1, uniform tape = .ok (u1, t1) ∧ uniform t1 = .ok (u2, t2) ∧
      windowOf size u1 u2 = (p, n) := by
  unfold corruptWindow at h
  cases h1 : uniform tape with
  | error f => rw [h1] at h; cases h
  | ok ut =>
    obtain ⟨u1, t1⟩ := ut
    rw [h1] at h
    simp only at h
    cases h2 : uniform t1 with
    | error f => rw [h2] at h; cases h
    | ok ut2 =>
      obtain ⟨u2, t3⟩ := ut2
      rw [h2] at h
      simp only [Except.ok.injEq, Prod.mk.injEq] at h
      obtain ⟨hp, hn, ht⟩ := h
      subst hp
      subst hn
      subst ht
      exact ⟨u1, u2, t1, rfl, h2, rfl⟩

theorem windowOf_zero (u1 u2 : ℚ) : windowOf 0 u1 u2 = (0, 0) := by
  have h32 : maxCorruptionSize = 32 := rfl
  have hmin : min ((0 : Int) - 0) maxCorruptionSize = 0 := by
    rw [h32]
    decide
  simp only [windowOf]
  rw [scale_zero u1, hmin, scale_zero u2]

theorem windowOf_bounds (size : Int) (u1 u2 : ℚ) (hs : 0 < size)
    (h1 : 0 ≤ u1 ∧ u1 ≤ 1 - 1 / 2 ^ 53) (h2 : 0 ≤ u2 ∧ u2 ≤ 1 - 1 / 2 ^ 53) :
    0 ≤ (windowOf size u1 u2).1 ∧ 0 ≤ (windowOf size u1 u2).2 ∧
    (windowOf size u1 u2).2 ≤ 31 ∧
    (windowOf size u1 u2).1 + (windowOf size u1 u2).2 ≤ size - 1 := by
  obtain ⟨hpa, hpb⟩ := scale_bounds u1 size h1.1 h1.2 (by omega)
  have h32 : maxCorruptionSize = 32 := rfl
  have hm : 1 ≤ min (size - intOfFloat (roundF64 (u1 * roundF64 (size : ℚ))))
      maxCorruptionSize := by
    rw [le_min_iff]
    omega
  obtain ⟨hna, hnb⟩ := scale_bounds u2 _ h2.1 h2.2 hm
  rw [lt_min_iff] at hnb
  simp only [windowOf]
  omega

theorem indexByte_in_range (raw : List Nat) (i : Int) (h0 : 0 ≤ i)
    (h1 : i < (raw.length : Int)) : ∃ b, indexByte raw i = .ok b := by
  have hlt : i.toNat < raw.length := by omega
  have hn : ¬ i < 0 := by omega
  exact ⟨raw[i.toNat], by simp only [indexByte, hn, if_false, List.getElem?_eq_getElem hlt]⟩

theorem corruptLoop_fault (k : Nat) (i : Int) (raw : List Nat) (tape : Tape) (f : Fault)
    (hi : 0 ≤ i) (hk : i + (k : Int) ≤ (raw.length : Int))
    (h : corruptLoop k i raw tape = .error f) : f = .starved := by
  induction k generalizing i raw tape with
  | zero => simp only [corruptLoop] at h; cases h
  | succ k ih =>
    push_cast at hk
    obtain ⟨b, hb⟩ := indexByte_in_range raw i hi (by omega)
    unfold corruptLoop at h
    rw [hb] at h
    simp only at h
    by_cases hp : bytesContains1 jpegSoiEoiMarkers b = true
    · simp only [hp, Bool.not_true, Bool.false_eq_true, if_false] at h
      exact ih (i + 1) raw tape (by omega) (by omega) h
    · simp only [hp, Bool.not_false, if_true] at h
      cases tape with
      | nil => simp only [randIntn, Except.error.injEq] at h; exact h.symm
      | cons x rest =>
        simp only [randIntn] at h
        exact ih (i + 1) _ rest (by omega) (by rw [List.length_set]; omega) h

theorem Corrupt_fault (vd : VirtualDisk) (tape : Tape) (f : Fault)
    (h : Corrupt vd tape = .error f) : f = .starved := by
  cases hw : corruptWindow (vd.Buffer.length : Int) tape with
  | error g =>
    simp only [Corrupt, hw, Except.error.injEq] at h
    subst h
    exact corruptWindow_fault _ tape g hw
  | ok w =>
    obtain ⟨p, n, t2⟩ := w
    rw [Corrupt_of_window vd tape p n t2 hw] at h
    obtain ⟨hz, hpos⟩ := corruptWindow_bounds _ tape p n t2 (Int.ofNat_nonneg _) hw
    by_cases hn : n = 0
    · subst hn
      rw [corruptAt_zero] at h
      cases h
    · have hsz : 0 < (vd.Buffer.length : Int) := by
        rcases Nat.eq_zero_or_pos vd.Buffer.length with h0 | h0
        · exact absurd (hz (by omega)).2 hn
        · omega
      obtain ⟨hp, hn0, -, hpn⟩ := hpos hsz
      unfold corruptAt at h
      simp only [hn, if_false] at h
      cases hl : corruptLoop (n + 1).toNat p vd.Buffer t2 with
      | error g =>
        rw [hl] at h
        simp only [Except.error.injEq] at h
        subst h
        exact corruptLoop_fault _ p vd.Buffer t2 g hp (by omega) hl
      | ok rt => rw [hl] at h; cases h

theorem Corrupt_frame_outside (vd : VirtualDisk) (tape : Tape) (p n : Int) (t2 : Tape)
    (hw : corruptWindow (vd.Buffer.length : Int) tape = .ok (p, n, t2))
    (r : CorruptResult) (hr : Corrupt vd tape = .ok r) (j : Nat)
    (hj : (j : Int) < p ∨ p + n < (j : Int)) :
    r.disk.Buffer[j]? = vd.Buffer[j]? := by
  rw [Corrupt_of_window vd tape p n t2 hw] at hr
  by_cases hn : n = 0
  · subst hn
    rw [corruptAt_zero] at hr
    cases hr
    rfl
  · obtain ⟨raw, t3, hl, hr1⟩ := corruptAt_ok vd p n t2 r hn hr
    subst hr1
    exact (corruptLoop_spec _ _ _ _ _ _ hl).2.1 j (by omega)

/-- C14. For every geometric draw b >= 1 and every significand sig with
0 <= sig < 2^52, the sampler value (1 + sig/2^52) / 2^b, as an exact
rational, lies in [2^-b, 2^(1-b)), hence strictly between 0 and 1. Up to
b = 1022 it is exactly the value `uniform` returns on these draws; from
b = 1024 on `uniform` returns 0 instead; and every value `uniform` returns
lies in [0, 1). -/
theorem C14_sampler_range (sig b : Nat) (hb : 1 ≤ b) (hsig : sig < 2 ^ 52) :
    (0 < samplerValue sig b ∧ samplerValue sig b < 1) ∧
    ((1 : ℚ) / 2 ^ b ≤ samplerValue sig b ∧ samplerValue sig b < 2 / 2 ^ b) ∧
    (b ≤ 1022 → ∀ rest : Tape,
      uniform (drawTape sig (b - 1) ++ rest) = .ok (samplerValue sig b, rest)) ∧
    (1024 ≤ b → ∀ rest : Tape, uniform (drawTape sig (b - 1) ++ rest) = .ok (0, rest)) ∧
    (∀ (tape : Tape) (u : ℚ) (t : Tape), uniform tape = .ok (u, t) → 0 ≤ u ∧ u < 1) := by
  obtain ⟨hlo, hhi⟩ := samplerValue_bounds sig b hsig
  have hpos : (0 : ℚ) < 2 ^ b := by positivity
  have hpow : (2 : ℚ) ≤ 2 ^ b := by
    calc (2 : ℚ) = 2 ^ 1 := by norm_num
      _ ≤ 2 ^ b := pow_le_pow_right₀ (by norm_num) hb
  have h2 : (2 : ℚ) / 2 ^ b ≤ 1 := by
    rw [div_le_one hpos]
    exact hpow
  have h0 : (0 : ℚ) < 1 / 2 ^ b := by positivity
  refine ⟨⟨lt_of_lt_of_le h0 hlo, lt_of_lt_of_le hhi h2⟩, ⟨hlo, hhi⟩,
    fun hb2 rest => uniform_drawTape_value sig b hsig hb hb2 rest,
    fun hb3 rest => uniform_drawTape_overflow sig b hb3 rest, ?_⟩
  intro tape u t hu
  obtain ⟨hu0, hu1, -⟩ := uniform_range tape u t hu
  have h53 : (0 : ℚ) < 1 / 2 ^ 53 := by positivity
  exact ⟨hu0, by linarith⟩

/-- C14, at sig = 2^51 and b = 3, where the sampler value is 3/16 and is what
`uniform` returns. -/
theorem C14_sampler_range_witness :
    (0 < samplerValue (2 ^ 51) 3 ∧ samplerValue (2 ^ 51) 3 < 1) ∧
    ((1 : ℚ) / 2 ^ 3 ≤ samplerValue (2 ^ 51) 3 ∧ samplerValue (2 ^ 51) 3 < 2 / 2 ^ 3) ∧
    uniform (drawTape (2 ^ 51) (3 - 1) ++ []) = .ok (samplerValue (2 ^ 51) 3, []) :=
  ⟨(C14_sampler_range (2 ^ 51) 3 (by decide) (by norm_num)).1,
    (C14_sampler_range (2 ^ 51) 3 (by decide) (by norm_num)).2.1,
    (C14_sampler_range (2 ^ 51) 3 (by decide) (by norm_num)).2.2.1 (by decide) []⟩

/-- C17. For every disk state and every pair of sampler values (float64
values in (0,1)), the drawn length satisfies 0 <= n <= 31; so the positions a
returning Corrupt call changes all lie in a set of at most 32 positions, the
inclusive window [p, p+n]. -/
theorem C17_corruption_length_ceiling (vd : VirtualDisk) :
    (∀ u1 u2 : ℚ, isFloat64 u1 → 0 < u1 → u1 < 1 → isFloat64 u2 → 0 < u2 → u2 < 1 →
      0 ≤ (windowOf (vd.Buffer.length : Int) u1 u2).2 ∧
      (windowOf (vd.Buffer.length : Int) u1 u2).2 ≤ 31) ∧
    (∀ (tape : Tape) (p n : Int) (t2 : Tape),
      corruptWindow (vd.Buffer.length : Int) tape = .ok (p, n, t2) →
      0 ≤ n ∧ n ≤ 31 ∧
      ∀ r, Corrupt vd tape = .ok r →
        ∃ S : Finset Nat, S.card ≤ 32 ∧
          ∀ j : Nat, r.disk.Buffer[j]? ≠ vd.Buffer[j]? →
            j ∈ S ∧ p ≤ (j : Int) ∧ (j : Int) ≤ p + n) := by
  constructor
  · intro u1 u2 hf1 h1 h2 hf2 h3 h4
    rcases Nat.eq_zero_or_pos vd.Buffer.length with h0 | h0
    · rw [h0]
      simp [windowOf_zero]
    · obtain ⟨-, ha, hb, -⟩ := windowOf_bounds (vd.Buffer.length : Int) u1 u2 (by omega)
        ⟨le_of_lt h1, isFloat64_lt_one u1 hf1 h2⟩ ⟨le_of_lt h3, isFloat64_lt_one u2 hf2 h4⟩
      exact ⟨ha, hb⟩
  · intro tape p n t2 hw
    obtain ⟨hz, hpos⟩ := corruptWindow_bounds _ tape p n t2 (Int.ofNat_nonneg _) hw
    have h32 : maxCorruptionSize = 32 := rfl
    have hb : 0 ≤ p ∧ 0 ≤ n ∧ n ≤ 31 := by
      rcases Nat.eq_zero_or_pos vd.Buffer.length with h0 | h0
      · obtain ⟨hp, hn⟩ := hz (by omega)
        omega
      · obtain ⟨hp, hn, hn1, -⟩ := hpos (by omega)
        omega
    refine ⟨hb.2.1, hb.2.2, ?_⟩
    intro r hr
    refine ⟨Finset.Icc p.toNat (p + n).toNat, ?_, ?_⟩
    · rw [Nat.card_Icc]
      omega
    · intro j hj
      have hin : p ≤ (j : Int) ∧ (j : Int) ≤ p + n := by
        by_contra hout
        exact hj (Corrupt_frame_outside vd tape p n t2 hw r hr j (by omega))
      refine ⟨?_, hin⟩
      rw [Finset.mem_Icc]
      omega

/-- C17, at two concrete runs: on the 22-byte disk the drawn length is 5; on
the 6-byte disk, where the first product rounds up to 2.0, the drawn length
is 3. -/
theorem C17_corruption_length_ceiling_witness :
    (corruptWindow (containmentDisk.Buffer.length : Int) containmentTape =
        .ok (9, 5, List.replicate 6 7) ∧
      (0 : Int) ≤ 5 ∧ (5 : Int) ≤ 31) ∧
    (corruptWindow (roundingDisk.Buffer.length : Int) roundingTape =
        .ok (2, 3, List.replicate 4 7) ∧
      (0 : Int) ≤ 3 ∧ (3 : Int) ≤ 31) :=
  ⟨⟨by with_unfolding_all rfl,
      ((C17_corruption_length_ceiling containmentDisk).2 containmentTape 9 5
        (List.replicate 6 7) (by with_unfolding_all rfl)).1,
      ((C17_corruption_length_ceiling containmentDisk).2 containmentTape 9 5
        (List.replicate 6 7) (by with_unfolding_all rfl)).2.1⟩,
    ⟨by with_unfolding_all rfl,
      ((C17_corruption_length_ceiling roundingDisk).2 roundingTape 2 3
        (List.replicate 4 7) (by with_unfolding_all rfl)).1,
      ((C17_corruption_length_ceiling roundingDisk).2 roundingTape 2 3
        (List.replicate 4 7) (by with_unfolding_all rfl)).2.1⟩⟩

/-- C18. The inclusive window of Corrupt is always in bounds: for a buffer of
length size > 0 and sampler values u1, u2 (float64 values in (0,1)), the
computed p = floor(u1*size) and n = floor(u2*min(size-p, 32)), with the
products and conversions taken in float64 as the code takes them, satisfy
0 <= p and p + n <= size - 1, so every index i with p <= i <= p+n is a valid
buffer index, and no Corrupt call ends in an out-of-range access. The same
bounds hold for the floors of the exact products. -/
theorem C18_window_in_bounds (vd : VirtualDisk) (u1 u2 : ℚ)
    (hs : 0 < vd.Buffer.length) (hf1 : isFloat64 u1) (h1 : 0 < u1 ∧ u1 < 1)
    (hf2 : isFloat64 u2) (h2 : 0 < u2 ∧ u2 < 1) :
    (windowOf (vd.Buffer.length : Int) u1 u2).1 =
      ⌊roundF64 (u1 * roundF64 (vd.Buffer.length : ℚ))⌋ ∧
    (windowOf (vd.Buffer.length : Int) u1 u2).2 =
      ⌊roundF64 (u2 * roundF64 ((min ((vd.Buffer.length : Int) -
        ⌊roundF64 (u1 * roundF64 (vd.Buffer.length : ℚ))⌋) 32 : Int) : ℚ))⌋ ∧
    0 ≤ (windowOf (vd.Buffer.length : Int) u1 u2).1 ∧
    (windowOf (vd.Buffer.length : Int) u1 u2).1 + (windowOf (vd.Buffer.length : Int) u1 u2).2 ≤
      (vd.Buffer.length : Int) - 1 ∧
    (∀ i : Int, (windowOf (vd.Buffer.length : Int) u1 u2).1 ≤ i →
      i ≤ (windowOf (vd.Buffer.length : Int) u1 u2).1 +
        (windowOf (vd.Buffer.length : Int) u1 u2).2 →
      ∃ b, indexByte vd.Buffer i = .ok b) ∧
    (∀ tape : Tape, Corrupt vd tape ≠ .error .outOfRange) ∧
    (0 ≤ ⌊u1 * (vd.Buffer.length : ℚ)⌋ ∧
      ⌊u1 * (vd.Buffer.length : ℚ)⌋ +
        ⌊u2 * ((min ((vd.Buffer.length : Int) - ⌊u1 * (vd.Buffer.length : ℚ)⌋) 32 : Int) : ℚ)⌋ ≤
        (vd.Buffer.length : Int) - 1) := by
  have hsz : 0 < (vd.Buffer.length : Int) := by omega
  obtain ⟨ha, hb, hc, hd⟩ := windowOf_bounds (vd.Buffer.length : Int) u1 u2 hsz
    ⟨le_of_lt h1.1, isFloat64_lt_one u1 hf1 h1.2⟩ ⟨le_of_lt h2.1, isFloat64_lt_one u2 hf2 h2.2⟩
  have hp : (windowOf (vd.Buffer.length : Int) u1 u2).1 =
      ⌊roundF64 (u1 * roundF64 (vd.Buffer.length : ℚ))⌋ := by
    simp only [windowOf]
    rw [intOfFloat_eq_floor _ (roundF64_nonneg _)]
    simp
  refine ⟨hp, ?_, ha, hd, ?_, ?_, ?_⟩
  · rw [← hp]
    have := intOfFloat_eq_floor
      (roundF64 (u2 * roundF64 ((min ((vd.Buffer.length : Int) -
        (windowOf (vd.Buffer.length : Int) u1 u2).1) maxCorruptionSize : Int) : ℚ)))
      (roundF64_nonneg _)
    simpa only [windowOf, maxCorruptionSize] using this
  · intro i hi1 hi2
    exact indexByte_in_range vd.Buffer i (by omega) (by omega)
  · intro tape hf
    have := Corrupt_fault vd tape _ hf
    cases this
  · have hcast : ((vd.Buffer.length : Int) : ℚ) = (vd.Buffer.length : ℚ) := by simp
    obtain ⟨hpa, hpb⟩ := floor_mul_bounds u1 (vd.Buffer.length : Int) h1.1 h1.2 hsz
    rw [hcast] at hpa hpb
    have hm : 0 < min ((vd.Buffer.length : Int) - ⌊u1 * (vd.Buffer.length : ℚ)⌋) 32 := by
      rw [lt_min_iff]
      omega
    obtain ⟨hna, hnb⟩ := floor_mul_bounds u2 _ h2.1 h2.2 hm
    rw [lt_min_iff] at hnb
    omega

/-- C18, at the 6-byte disk with the sampler values 6004799503160661 / 2^54
and 3/4: the float64 product u1 * 6 rounds up to 2.0, so p = 2 (the floor of
the exact product is 1), n = 3, and p + n = 5 is the last valid index. -/
theorem C18_window_in_bounds_witness :
    windowOf (roundingDisk.Buffer.length : Int) (6004799503160661 / 2 ^ 54) (3 / 4) = (2, 3) ∧
    ⌊(6004799503160661 / 2 ^ 54 : ℚ) * (roundingDisk.Buffer.length : ℚ)⌋ = 1 ∧
    (0 : Int) ≤ (windowOf (roundingDisk.Buffer.length : Int)
      (6004799503160661 / 2 ^ 54) (3 / 4)).1 ∧
    (windowOf (roundingDisk.Buffer.length : Int) (6004799503160661 / 2 ^ 54) (3 / 4)).1 +
      (windowOf (roundingDisk.Buffer.length : Int) (6004799503160661 / 2 ^ 54) (3 / 4)).2 ≤
      (roundingDisk.Buffer.length : Int) - 1 :=
  ⟨by with_unfolding_all rfl, by with_unfolding_all rfl,
    (C18_window_in_bounds roundingDisk (6004799503160661 / 2 ^ 54) (3 / 4) (by decide)
      ⟨6004799503160661, -54, by norm_num, by norm_num, by norm_num⟩
      (by norm_num) ⟨3, -2, by norm_num, by norm_num, by norm_num⟩ (by norm_num)).2.2.1,
    (C18_window_in_bounds roundingDisk (6004799503160661 / 2 ^ 54) (3 / 4) (by decide)
      ⟨6004799503160661, -54, by norm_num, by norm_num, by norm_num⟩
      (by norm_num) ⟨3, -2, by norm_num, by norm_num, by norm_num⟩ (by norm_num)).2.2.2.1⟩

/-! ## Disks built by `AddFile` alone -/

theorem layout_laidOut (cs : List (List Nat)) (start : Int) :
    laidOut start (start + ((concatAll cs).length : Int)) (layout start cs) := by
  induction cs generalizing start with
  | nil => simp [layout, concatAll, laidOut]
  | cons c cs ih =>
    simp only [layout, concatAll, laidOut, List.length_append, Nat.cast_add]
    refine ⟨le_refl _, by omega, ?_⟩
    have := ih ((c.length : Int) + start)
    have he : (c.length : Int) + start + ((concatAll cs).length : Int) =
        start + ((c.length : Int) + ((concatAll cs).length : Int)) := by omega
    rw [he] at this
    exact this

theorem laidOut_lt (es : List Entry) (lo hi : Int) (h : laidOut lo hi es) (i j : Nat)
    (hij : i < j) (e e1 : Entry) (he : es[i]? = some e) (he1 : es[j]? = some e1) :
    e.Tail ≤ e1.Head := by
  induction es generalizing lo i j with
  | nil => simp at he
  | cons e0 es ih =>
    obtain ⟨h1, h2, h3⟩ := h
    cases j with
    | zero => omega
    | succ j =>
      simp only [List.getElem?_cons_succ] at he1
      cases i with
      | zero =>
        simp only [List.getElem?_cons_zero, Option.some.injEq] at he
        subst he
        exact (laidOut_get es _ _ h3 j e1 he1).1
      | succ i =>
        simp only [List.getElem?_cons_succ] at he
        exact ih _ h3 i j (by omega) he he1

theorem layout_cover (cs : List (List Nat)) (start p : Int) (h1 : start ≤ p)
    (h2 : p < start + ((concatAll cs).length : Int)) :
    ∃ (k : Nat) (e : Entry), (layout start cs)[k]? = some e ∧ e.Head ≤ p ∧ p < e.Tail := by
  induction cs generalizing start with
  | nil => simp [concatAll] at h2; omega
  | cons c cs ih =>
    simp only [concatAll, List.length_append, Nat.cast_add] at h2
    by_cases hp : p < (c.length : Int) + start
    · exact ⟨0, { Head := start, Tail := (c.length : Int) + start }, by simp [layout], h1, hp⟩
    · obtain ⟨k, e, hk, hk1, hk2⟩ := ih ((c.length : Int) + start) (by omega) (by omega)
      exact ⟨k + 1, e, by simpa [layout] using hk, hk1, hk2⟩

/-- C20. On a disk built from an empty disk by successful AddFile calls only,
for every outcome of the draws with n > 0 there is exactly one entry with
Head <= p < Tail, and the list a returning Corrupt call returns contains its
index, so the list is non-empty; the call returns once the tape holds n+1
byte draws. -/
theorem C20_corrupt_reports_entry_at_offset (vd0 vd : VirtualDisk) (rs : List Reader)
    (h0 : vd0 = NewVirtualDisk ∨ ∃ v, vd0 = Reset v)
    (h : addFiles vd0 rs = some vd) (tape : Tape) (p n : Int) (t2 : Tape)
    (hw : corruptWindow (vd.Buffer.length : Int) tape = .ok (p, n, t2)) (hn : 0 < n) :
    (∃ (k : Nat) (e : Entry), vd.Entries[k]? = some e ∧ e.Head ≤ p ∧ p < e.Tail ∧
      (∀ (k1 : Nat) (e1 : Entry), vd.Entries[k1]? = some e1 → e1.Head ≤ p → p < e1.Tail →
        k1 = k) ∧
      ∀ r, Corrupt vd tape = .ok r → (k : Int) ∈ r.indexes ∧ r.indexes ≠ []) ∧
    ((n + 1).toNat ≤ t2.length → ∃ r, Corrupt vd tape = .ok r) := by
  refine ⟨?_, fun ht => Corrupt_returns vd tape p n t2 hw ht⟩
  have hempty : vd0.Entries = [] ∧ vd0.Buffer = [] := by
    rcases h0 with h0 | ⟨v, h0⟩ <;> subst h0 <;> simp [NewVirtualDisk, Reset]
  obtain ⟨hE, hB⟩ := addFiles_eq rs vd0 vd h
  rw [hempty.1, hempty.2] at hE
  rw [hempty.2] at hB
  simp only [List.nil_append, List.length_nil, Nat.cast_zero] at hE hB
  obtain ⟨hz, hpos⟩ := corruptWindow_bounds _ tape p n t2 (Int.ofNat_nonneg _) hw
  have hsz : 0 < (vd.Buffer.length : Int) := by
    rcases Nat.eq_zero_or_pos vd.Buffer.length with h1 | h1
    · have := (hz (by omega)).2
      omega
    · omega
  obtain ⟨hp0, -, -, hpn⟩ := hpos hsz
  have hlaid : laidOut 0 (0 + ((concatAll (rs.map Reader.bytes)).length : Int))
      (layout 0 (rs.map Reader.bytes)) := layout_laidOut _ 0
  obtain ⟨k, e, hk, hk1, hk2⟩ := layout_cover (rs.map Reader.bytes) 0 p hp0
    (by rw [← hB]; omega)
  rw [← hE] at hk hlaid
  refine ⟨k, e, hk, hk1, hk2, ?_, ?_⟩
  · intro k1 e1 hk3 hk4 hk5
    rcases Nat.lt_trichotomy k1 k with hlt | heq | hgt
    · have := laidOut_lt _ _ _ hlaid k1 k hlt e1 e hk3 hk
      omega
    · exact heq
    · have := laidOut_lt _ _ _ hlaid k k1 hgt e e1 hk hk3
      omega
  · intro r hr
    rw [Corrupt_of_window vd tape p n t2 hw] at hr
    obtain ⟨raw, t3, -, hr1⟩ := corruptAt_ok vd p n t2 r (by omega) hr
    subst hr1
    have hmem : (k : Int) ∈ affectedLoop { Head := p, Tail := p + n } vd.Entries 0 [] := by
      rw [affectedLoop_mem]
      right
      refine ⟨k, e, hk, ?_, by simp⟩
      rw [Overlap_true_iff]
      left
      exact ⟨hk1, hk2⟩
    exact ⟨hmem, List.ne_nil_of_mem hmem⟩

/-- C20, at two concrete runs: on the disk holding files of 10, 2 and 10 bytes
with p = 9 and n = 5 the call returns; on the disk holding files of 2 and 4
bytes, where the product `u1 * 6` rounds up to 2.0 and p = 2, the returned
list [1] is non-empty. -/
theorem C20_corrupt_reports_entry_at_offset_witness :
    (addFiles NewVirtualDisk containmentFiles = some containmentDisk ∧
      corruptWindow (containmentDisk.Buffer.length : Int) containmentTape =
        .ok (9, 5, List.replicate 6 7) ∧
      ∃ r, Corrupt containmentDisk containmentTape = .ok r) ∧
    (addFiles NewVirtualDisk roundingFiles = some roundingDisk ∧
      corruptWindow (roundingDisk.Buffer.length : Int) roundingTape =
        .ok (2, 3, List.replicate 4 7) ∧
      Corrupt roundingDisk roundingTape =
        .ok { indexes := [1], disk := roundingDiskAfter, tape := [] } ∧
      ∃ (k : Nat) (e : Entry), roundingDisk.Entries[k]? = some e ∧ e.Head ≤ 2 ∧ 2 < e.Tail ∧
        (∀ (k1 : Nat) (e1 : Entry), roundingDisk.Entries[k1]? = some e1 → e1.Head ≤ 2 →
          2 < e1.Tail → k1 = k) ∧
        ∀ r, Corrupt roundingDisk roundingTape = .ok r → (k : Int) ∈ r.indexes ∧ r.indexes ≠ []) :=
  ⟨⟨by decide, by with_unfolding_all rfl,
      (C20_corrupt_reports_entry_at_offset NewVirtualDisk containmentDisk containmentFiles
        (Or.inl rfl) (by decide) containmentTape 9 5 (List.replicate 6 7)
        (by with_unfolding_all rfl) (by decide)).2 (by decide)⟩,
    ⟨by decide, by with_unfolding_all rfl, by with_unfolding_all rfl,
      (C20_corrupt_reports_entry_at_offset NewVirtualDisk roundingDisk roundingFiles
        (Or.inl rfl) (by decide) roundingTape 2 3 (List.replicate 4 7)
        (by with_unfolding_all rfl) (by decide)).1⟩⟩

/-! ## The distribution of the sampler

The geometric draw is `b = k` with probability `2^-k` for `k ≥ 1`, and the
significand is uniform over `[0, 2^52)`. The probability of an event `E` is the
sum over `k ≥ 1` of `eventMass E k`. -/

theorem card_filter_lt (N c : Nat) :
    ((Finset.range N).filter (fun s => s < c)).card = min c N := by
  have h : (Finset.range N).filter (fun s => s < c) = Finset.range (min c N) := by
    ext x
    simp only [Finset.mem_filter, Finset.mem_range, lt_min_iff]
    tauto
  rw [h, Finset.card_range]

theorem card_filter_gt (N c : Nat) :
    ((Finset.range N).filter (fun s => c < s)).card = N - (c + 1) := by
  have h : (Finset.range N).filter (fun s => c < s) = Finset.Ico (c + 1) N := by
    ext x
    simp only [Finset.mem_filter, Finset.mem_range, Finset.mem_Ico]
    omega
  rw [h, Nat.card_Ico]

theorem samplerValue_eq (sig b : Nat) :
    samplerValue sig b = ((2 ^ 52 + sig : Nat) : ℚ) / ((2 ^ (52 + b) : Nat) : ℚ) := by
  unfold samplerValue
  push_cast
  rw [pow_add]
  field_simp
  norm_num

theorem samplerValue_lt_iff (sig b a d : Nat) (hd : 0 < d) :
    samplerValue sig b < (a : ℚ) / (d : ℚ) ↔ (2 ^ 52 + sig) * d < a * 2 ^ (52 + b) := by
  have hd1 : (0 : ℚ) < (d : ℚ) := by exact_mod_cast hd
  have hp : (0 : ℚ) < ((2 ^ (52 + b) : Nat) : ℚ) := by positivity
  rw [samplerValue_eq, div_lt_div_iff₀ hp hd1]
  exact_mod_cast Iff.rfl

theorem samplerValue_gt_iff (sig b a d : Nat) (hd : 0 < d) :
    (a : ℚ) / (d : ℚ) < samplerValue sig b ↔ a * 2 ^ (52 + b) < (2 ^ 52 + sig) * d := by
  have hd1 : (0 : ℚ) < (d : ℚ) := by exact_mod_cast hd
  have hp : (0 : ℚ) < ((2 ^ (52 + b) : Nat) : ℚ) := by positivity
  rw [samplerValue_eq, div_lt_div_iff₀ hd1 hp]
  exact_mod_cast Iff.rfl

theorem eventCount_below_dyadic (b m j : Nat) (hm : m ≤ 52 + b) :
    eventCount (fun v => v < (j : ℚ) / 2 ^ m) b = min (j * 2 ^ (52 + b - m) - 2 ^ 52) (2 ^ 52) := by
  have hfilter : (Finset.range (2 ^ 52)).filter (fun sig => samplerValue sig b < (j : ℚ) / 2 ^ m) =
      (Finset.range (2 ^ 52)).filter (fun s => s < j * 2 ^ (52 + b - m) - 2 ^ 52) := by
    apply Finset.filter_congr
    intro sig _
    have hcast : ((2 : ℚ) ^ m) = (((2 ^ m : Nat)) : ℚ) := by
      simp only [Nat.cast_pow, Nat.cast_ofNat]
    have hsplit : 2 ^ (52 + b) = 2 ^ (52 + b - m) * 2 ^ m := by
      rw [← pow_add]
      congr 1
      omega
    rw [hcast, samplerValue_lt_iff sig b j (2 ^ m) (by positivity), hsplit, ← mul_assoc]
    rw [Nat.mul_lt_mul_right (by positivity : 0 < 2 ^ m)]
    generalize j * 2 ^ (52 + b - m) = T
    generalize 2 ^ 52 = N
    omega
  unfold eventCount
  rw [hfilter, card_filter_lt]

theorem clamp_count (N T : Nat) (x : ℚ) (hN : 0 < N) (hx : 0 < x) :
    x * (((min (T - N) N : Nat) : ℚ) / (N : ℚ)) =
      max 0 (min ((T : ℚ) / (N : ℚ) * x - x) x) := by
  have hNq : (0 : ℚ) < (N : ℚ) := by exact_mod_cast hN
  rcases Nat.lt_or_ge N T with h1 | h1
  · rcases Nat.lt_or_ge T (2 * N) with h2 | h2
    · have hmin : min (T - N) N = T - N := min_eq_left (by omega)
      have h1q : (N : ℚ) < (T : ℚ) := by exact_mod_cast h1
      have h2q : (T : ℚ) < 2 * (N : ℚ) := by exact_mod_cast h2
      have hval : x * ((((T - N : Nat)) : ℚ) / (N : ℚ)) = (T : ℚ) / (N : ℚ) * x - x := by
        rw [Nat.cast_sub (le_of_lt h1)]
        field_simp
        ring
      have hd1 : 1 < (T : ℚ) / (N : ℚ) := by rw [lt_div_iff₀ hNq]; linarith
      have hd2 : (T : ℚ) / (N : ℚ) < 2 := by rw [div_lt_iff₀ hNq]; linarith
      rw [hmin, hval, min_eq_left (by nlinarith), max_eq_right (by nlinarith)]
    · have hmin : min (T - N) N = N := min_eq_right (by omega)
      have h2q : 2 * (N : ℚ) ≤ (T : ℚ) := by exact_mod_cast h2
      have hd2 : 2 ≤ (T : ℚ) / (N : ℚ) := by rw [le_div_iff₀ hNq]; linarith
      have hval : x * ((N : ℚ) / (N : ℚ)) = x := by
        rw [div_self (ne_of_gt hNq), mul_one]
      rw [hmin, hval, min_eq_right (by nlinarith), max_eq_right (le_of_lt hx)]
  · have hmin : min (T - N) N = 0 := by
      have h0 : T - N = 0 := by omega
      rw [h0]
      exact Nat.zero_min _
    have h1q : (T : ℚ) ≤ (N : ℚ) := by exact_mod_cast h1
    have hd1 : (T : ℚ) / (N : ℚ) ≤ 1 := by rw [div_le_iff₀ hNq]; linarith
    rw [hmin]
    simp only [Nat.cast_zero, zero_div, mul_zero]
    rw [max_eq_left]
    exact le_trans (min_le_left _ _) (by nlinarith)

theorem eventMass_below_dyadic (b m j : Nat) (hm : m ≤ 52 + b) :
    eventMass (fun v => v < (j : ℚ) / 2 ^ m) b =
      max 0 (min ((j : ℚ) / 2 ^ m - 1 / 2 ^ b) (1 / 2 ^ b)) := by
  unfold eventMass
  rw [eventCount_below_dyadic b m j hm]
  have hx : (0 : ℚ) < 1 / 2 ^ b := by positivity
  have ht : (j : ℚ) / 2 ^ m =
      ((j * 2 ^ (52 + b - m) : Nat) : ℚ) / ((2 ^ 52 : Nat) : ℚ) * (1 / 2 ^ b) := by
    have hsplit : (2 : ℚ) ^ 52 * 2 ^ b = 2 ^ (52 + b - m) * 2 ^ m := by
      rw [← pow_add, ← pow_add]
      congr 1
      omega
    have hm0 : (0 : ℚ) < 2 ^ m := by positivity
    have hd0 : (0 : ℚ) < 2 ^ 52 * 2 ^ b := by positivity
    simp only [Nat.cast_mul, Nat.cast_pow, Nat.cast_ofNat]
    rw [div_mul_div_comm, mul_one, div_eq_div_iff (ne_of_gt hm0) (ne_of_gt hd0), hsplit]
    ring
  have hc := clamp_count (2 ^ 52) (j * 2 ^ (52 + b - m)) (1 / 2 ^ b) (by positivity) hx
  rw [ht]
  have h52 : ((2 : ℚ) ^ 52) = (((2 ^ 52 : Nat)) : ℚ) := by
    simp only [Nat.cast_pow, Nat.cast_ofNat]
  rw [h52]
  exact hc

theorem clamp_partial_sum (t : ℚ) (ht : t ≤ 1) (K : Nat) :
    (∑ k in Finset.range K, max 0 (min (t - 1 / 2 ^ (k + 1)) (1 / 2 ^ (k + 1)))) =
      max 0 (t - 1 / 2 ^ K) := by
  induction K with
  | zero =>
    simp only [Finset.range_zero, Finset.sum_empty, pow_zero, div_one]
    rw [max_eq_left]
    linarith
  | succ K ih =>
    rw [Finset.sum_range_succ, ih]
    have h2 : (1 : ℚ) / 2 ^ K = 2 * (1 / 2 ^ (K + 1)) := by
      rw [pow_succ]
      field_simp
    have ha : (0 : ℚ) < 1 / 2 ^ (K + 1) := by positivity
    rw [h2]
    generalize (1 : ℚ) / 2 ^ (K + 1) = a at ha ⊢
    simp only [max_def, min_def]
    split_ifs <;> linarith

theorem hasSum_below_dyadic (m j : Nat) (hm : m ≤ 53) (hj : j ≤ 2 ^ m) :
    HasSum (fun k : Nat => ((eventMass (fun v => v < (j : ℚ) / 2 ^ m) (k + 1) : ℚ) : ℝ))
      ((((j : ℚ) / 2 ^ m : ℚ)) : ℝ) := by
  have hpos : (0 : ℚ) < 2 ^ m := by positivity
  have ht0 : (0 : ℚ) ≤ (j : ℚ) / 2 ^ m := by positivity
  have ht1 : (j : ℚ) / 2 ^ m ≤ 1 := by
    rw [div_le_one hpos]
    exact_mod_cast hj
  have hmass : ∀ k : Nat, eventMass (fun v => v < (j : ℚ) / 2 ^ m) (k + 1) =
      max 0 (min ((j : ℚ) / 2 ^ m - 1 / 2 ^ (k + 1)) (1 / 2 ^ (k + 1))) :=
    fun k => eventMass_below_dyadic (k + 1) m j (by omega)
  have hnonneg : ∀ k : Nat,
      (0 : ℝ) ≤ ((eventMass (fun v => v < (j : ℚ) / 2 ^ m) (k + 1) : ℚ) : ℝ) := by
    intro k
    rw [hmass]
    exact_mod_cast le_max_left (0 : ℚ) _
  rw [hasSum_iff_tendsto_nat_of_nonneg hnonneg]
  have hsum : ∀ K : Nat,
      (∑ i in Finset.range K,
        ((eventMass (fun v => v < (j : ℚ) / 2 ^ m) (i + 1) : ℚ) : ℝ)) =
      ((max 0 ((j : ℚ) / 2 ^ m - 1 / 2 ^ K) : ℚ) : ℝ) := by
    intro K
    rw [← Rat.cast_sum, ← clamp_partial_sum _ ht1 K]
    congr 1
    exact Finset.sum_congr rfl (fun k _ => hmass k)
  have hlow : Filter.Tendsto (fun K : Nat => ((((j : ℚ) / 2 ^ m : ℚ)) : ℝ) - (1 / 2 : ℝ) ^ K)
      Filter.atTop (nhds ((((j : ℚ) / 2 ^ m : ℚ)) : ℝ)) := by
    have h0 := tendsto_pow_atTop_nhds_zero_of_lt_one (r := (1 / 2 : ℝ)) (by norm_num)
      (by norm_num)
    have h1 := (tendsto_const_nhds (x := ((((j : ℚ) / 2 ^ m : ℚ)) : ℝ))
      (f := Filter.atTop (α := Nat))).sub h0
    simpa using h1
  refine tendsto_of_tendsto_of_tendsto_of_le_of_le hlow tendsto_const_nhds ?_ ?_
  · intro K
    simp only [hsum]
    have h : (j : ℚ) / 2 ^ m - 1 / 2 ^ K ≤ max 0 ((j : ℚ) / 2 ^ m - 1 / 2 ^ K) :=
      le_max_right _ _
    have h1 := (Rat.cast_le (K := ℝ)).mpr h
    have h2 : ((((j : ℚ) / 2 ^ m - 1 / 2 ^ K : ℚ)) : ℝ) =
        ((((j : ℚ) / 2 ^ m : ℚ)) : ℝ) - (1 / 2 : ℝ) ^ K := by
      push_cast
      rw [one_div, one_div, inv_pow]
    rw [h2] at h1
    exact h1
  · intro K
    simp only [hsum]
    have hK : (0 : ℚ) < 1 / 2 ^ K := by positivity
    have h : max 0 ((j : ℚ) / 2 ^ m - 1 / 2 ^ K) ≤ (j : ℚ) / 2 ^ m :=
      max_le ht0 (by linarith)
    exact (Rat.cast_le (K := ℝ)).mpr h

/-- C16. The sampler is uniform on dyadic thresholds: when b = k has
probability 2^-k (k >= 1) and sig is uniform over the integers in [0, 2^52),
for every threshold t = j/2^m with m <= 53 and 0 <= j <= 2^m the probability
that (1 + sig/2^52)/2^b < t, the sum over k >= 1 of the mass of the event at
b = k, equals exactly t; each finite partial sum over k = 1..K of these
masses is max(0, t - 2^-K). -/
theorem C16_sampler_uniform_on_dyadics (m j : Nat) (hm : m ≤ 53) (hj : j ≤ 2 ^ m) :
    HasSum (fun k : Nat => ((eventMass (fun v => v < (j : ℚ) / 2 ^ m) (k + 1) : ℚ) : ℝ))
      ((((j : ℚ) / 2 ^ m : ℚ)) : ℝ) ∧
    (∀ K : Nat, (∑ k in Finset.range K, eventMass (fun v => v < (j : ℚ) / 2 ^ m) (k + 1)) =
      max 0 ((j : ℚ) / 2 ^ m - 1 / 2 ^ K)) := by
  refine ⟨hasSum_below_dyadic m j hm hj, ?_⟩
  intro K
  have hpos : (0 : ℚ) < 2 ^ m := by positivity
  have ht1 : (j : ℚ) / 2 ^ m ≤ 1 := by
    rw [div_le_one hpos]
    exact_mod_cast hj
  rw [← clamp_partial_sum _ ht1 K]
  exact Finset.sum_congr rfl (fun k _ => eventMass_below_dyadic (k + 1) m j (by omega))

/-- C16, at the threshold 3/8: the probability that the sampler value is
below 3/8 is exactly 3/8. -/
theorem C16_sampler_uniform_on_dyadics_witness :
    HasSum (fun k : Nat => ((eventMass (fun v => v < ((3 : Nat) : ℚ) / 2 ^ 3) (k + 1) : ℚ) : ℝ))
      (((((3 : Nat) : ℚ) / 2 ^ 3 : ℚ)) : ℝ) :=
  (C16_sampler_uniform_on_dyadics 3 3 (by decide) (by decide)).1

/-! ## The two tails of the sampler: below 1/10 and above 9/10 -/

theorem below_tenth_iff (sig b : Nat) :
    samplerValue sig b < 1 / 10 ↔ (2 ^ 52 + sig) * 10 < 1 * 2 ^ (52 + b) := by
  have h := samplerValue_lt_iff sig b 1 10 (by decide)
  have hc : ((1 : Nat) : ℚ) / ((10 : Nat) : ℚ) = 1 / 10 := by norm_num
  rw [hc] at h
  exact h

theorem above_nine_tenths_iff (sig b : Nat) :
    9 / 10 < samplerValue sig b ↔ 9 * 2 ^ (52 + b) < (2 ^ 52 + sig) * 10 := by
  have h := samplerValue_gt_iff sig b 9 10 (by decide)
  have hc : ((9 : Nat) : ℚ) / ((10 : Nat) : ℚ) = 9 / 10 := by norm_num
  rw [hc] at h
  exact h

theorem eventMass_of_none (E : ℚ → Prop) [DecidablePred E] (b : Nat)
    (h : ∀ sig, sig < 2 ^ 52 → ¬ E (samplerValue sig b)) : eventMass E b = 0 := by
  have hc : eventCount E b = 0 := by
    unfold eventCount
    rw [Finset.card_eq_zero, Finset.filter_eq_empty_iff]
    intro sig hs
    exact h sig (Finset.mem_range.mp hs)
  simp [eventMass, hc]

theorem eventMass_of_all (E : ℚ → Prop) [DecidablePred E] (b : Nat)
    (h : ∀ sig, sig < 2 ^ 52 → E (samplerValue sig b)) : eventMass E b = 1 / 2 ^ b := by
  have hc : eventCount E b = 2 ^ 52 := by
    unfold eventCount
    rw [Finset.filter_true_of_mem, Finset.card_range]
    intro sig hs
    exact h sig (Finset.mem_range.mp hs)
  have hne : ((2 : ℚ) ^ 52) ≠ 0 := by positivity
  unfold eventMass
  rw [hc]
  simp only [Nat.cast_pow, Nat.cast_ofNat]
  rw [div_self hne, mul_one]

theorem eventMass_below_tenth_small (b : Nat) (hb : b ≤ 3) :
    eventMass (fun v : ℚ => v < 1 / 10) b = 0 := by
  apply eventMass_of_none
  intro sig _
  rw [below_tenth_iff]
  have hpow : 2 ^ (52 + b) ≤ 2 ^ 55 := Nat.pow_le_pow_right (by decide) (by omega)
  generalize 2 ^ (52 + b) = X at hpow
  omega

theorem eventMass_below_tenth_large (b : Nat) (hb : 5 ≤ b) :
    eventMass (fun v : ℚ => v < 1 / 10) b = 1 / 2 ^ b := by
  apply eventMass_of_all
  intro sig hs
  rw [below_tenth_iff]
  have hpow : 2 ^ 57 ≤ 2 ^ (52 + b) := Nat.pow_le_pow_right (by decide) (by omega)
  generalize 2 ^ (52 + b) = X at hpow
  omega

theorem eventMass_below_tenth_four :
    eventMass (fun v : ℚ => v < 1 / 10) 4 =
      (1 / 2 ^ 4) * (((2702159776422298 : Nat) : ℚ) / 2 ^ 52) := by
  have hfilter : (Finset.range (2 ^ 52)).filter (fun sig => samplerValue sig 4 < 1 / 10) =
      (Finset.range (2 ^ 52)).filter (fun s => s < 2702159776422298) := by
    apply Finset.filter_congr
    intro sig _
    rw [below_tenth_iff]
    omega
  have hc : eventCount (fun v : ℚ => v < 1 / 10) 4 = 2702159776422298 := by
    unfold eventCount
    rw [hfilter, card_filter_lt]
    apply min_eq_left
    norm_num
  unfold eventMass
  rw [hc]

theorem eventMass_above_nine_tenths_large (b : Nat) (hb : 2 ≤ b) :
    eventMass (fun v : ℚ => 9 / 10 < v) b = 0 := by
  apply eventMass_of_none
  intro sig hs
  rw [above_nine_tenths_iff]
  have hpow : 2 ^ 54 ≤ 2 ^ (52 + b) := Nat.pow_le_pow_right (by decide) (by omega)
  generalize 2 ^ (52 + b) = X at hpow
  omega

theorem eventMass_above_nine_tenths_one :
    eventMass (fun v : ℚ => 9 / 10 < v) 1 =
      (1 / 2 ^ 1) * (((900719925474099 : Nat) : ℚ) / 2 ^ 52) := by
  have hfilter : (Finset.range (2 ^ 52)).filter (fun sig => 9 / 10 < samplerValue sig 1) =
      (Finset.range (2 ^ 52)).filter (fun s => 3602879701896396 < s) := by
    apply Finset.filter_congr
    intro sig _
    rw [above_nine_tenths_iff]
    omega
  have hc : eventCount (fun v : ℚ => 9 / 10 < v) 1 = 900719925474099 := by
    unfold eventCount
    rw [hfilter, card_filter_gt]
    norm_num
  unfold eventMass
  rw [hc]

theorem hasSum_below_tenth_tail :
    HasSum (fun n : Nat => ((eventMass (fun v : ℚ => v < 1 / 10) (n + 4 + 1) : ℚ) : ℝ))
      (1 / 32 * 2 : ℝ) := by
  have hg := (hasSum_geometric_two).mul_left (1 / 32 : ℝ)
  refine hg.congr_fun ?_
  intro n
  rw [eventMass_below_tenth_large (n + 4 + 1) (by omega)]
  push_cast
  rw [show n + 4 + 1 = n + 5 by omega, pow_add]
  field_simp
  ring

theorem below_tenth_head :
    (∑ i in Finset.range 4, ((eventMass (fun v : ℚ => v < 1 / 10) (i + 1) : ℚ) : ℝ)) =
      (((1 / 2 ^ 4) * (((2702159776422298 : Nat) : ℚ) / 2 ^ 52) : ℚ) : ℝ) := by
  simp only [Finset.sum_range_succ, Finset.range_zero, Finset.sum_empty]
  rw [eventMass_below_tenth_small 1 (by decide), eventMass_below_tenth_small 2 (by decide),
    eventMass_below_tenth_small 3 (by decide), eventMass_below_tenth_four]
  simp only [Rat.cast_zero, zero_add]

theorem below_tenth_value :
    (1 / 32 * 2 : ℝ) + (((1 / 2 ^ 4) * (((2702159776422298 : Nat) : ℚ) / 2 ^ 52) : ℚ) : ℝ) =
      (((1 / 10 + 1 / (5 * 2 ^ 55) : ℚ)) : ℝ) := by
  have h : (1 / 32 * 2 : ℚ) + (1 / 2 ^ 4) * (((2702159776422298 : Nat) : ℚ) / 2 ^ 52) =
      1 / 10 + 1 / (5 * 2 ^ 55) := by norm_num
  rw [← h]
  push_cast
  ring

theorem hasSum_below_tenth :
    HasSum (fun k : Nat => ((eventMass (fun v : ℚ => v < 1 / 10) (k + 1) : ℚ) : ℝ))
      (((1 / 10 + 1 / (5 * 2 ^ 55) : ℚ)) : ℝ) := by
  have h := (hasSum_nat_add_iff
    (f := fun k : Nat => ((eventMass (fun v : ℚ => v < 1 / 10) (k + 1) : ℚ) : ℝ)) 4).mp
    hasSum_below_tenth_tail
  rw [below_tenth_head, below_tenth_value] at h
  exact h

theorem hasSum_above_nine_tenths :
    HasSum (fun k : Nat => ((eventMass (fun v : ℚ => 9 / 10 < v) (k + 1) : ℚ) : ℝ))
      (((1 / 10 - 1 / (5 * 2 ^ 53) : ℚ)) : ℝ) := by
  have h := hasSum_single (f := fun k : Nat =>
      ((eventMass (fun v : ℚ => 9 / 10 < v) (k + 1) : ℚ) : ℝ)) 0
    (by
      intro k hk
      have hk1 : 2 ≤ k + 1 := by
        have : k ≠ 0 := hk
        omega
      simp only
      rw [eventMass_above_nine_tenths_large (k + 1) hk1]
      exact Rat.cast_zero)
  have hval : ((eventMass (fun v : ℚ => 9 / 10 < v) (0 + 1) : ℚ) : ℝ) =
      (((1 / 10 - 1 / (5 * 2 ^ 53) : ℚ)) : ℝ) := by
    congr 1
    rw [eventMass_above_nine_tenths_one]
    norm_num
  rw [← hval]
  exact h

/-- C15, as stated, fails: with b = k of probability 2^-k and sig uniform over
[0, 2^52), it is not true that the probability of a sampler value below 1/10
is at least twice the probability of a sampler value above 9/10. -/
theorem C15_low_tail_not_twice_high_tail :
    ¬ ∀ Plow Phigh : ℝ,
      HasSum (fun k : Nat => ((eventMass (fun v : ℚ => v < 1 / 10) (k + 1) : ℚ) : ℝ)) Plow →
      HasSum (fun k : Nat => ((eventMass (fun v : ℚ => 9 / 10 < v) (k + 1) : ℚ) : ℝ)) Phigh →
      2 * Phigh ≤ Plow := by
  intro h
  have h1 := h _ _ hasSum_below_tenth hasSum_above_nine_tenths
  have h2 : ¬ ((2 : ℚ) * (1 / 10 - 1 / (5 * 2 ^ 53)) ≤ 1 / 10 + 1 / (5 * 2 ^ 55)) := by
    norm_num
  apply h2
  have h3 : ((2 : ℝ) * (((1 / 10 - 1 / (5 * 2 ^ 53) : ℚ)) : ℝ)) =
      (((2 * (1 / 10 - 1 / (5 * 2 ^ 53)) : ℚ)) : ℝ) := by
    rw [Rat.cast_mul]
    norm_num
  rw [h3] at h1
  exact (Rat.cast_le (K := ℝ)).mp h1

/-- C15, amended. With b = k of probability 2^-k and sig uniform over
[0, 2^52), the probability of a sampler value below 1/10 is
1/10 + 1/(5*2^55) and the probability of a sampler value above 9/10 is
1/10 - 1/(5*2^53): the first exceeds the second by exactly 2^-55, and is less
than twice the second. -/
theorem C15_tails_nearly_equal :
    HasSum (fun k : Nat => ((eventMass (fun v : ℚ => v < 1 / 10) (k + 1) : ℚ) : ℝ))
      (((1 / 10 + 1 / (5 * 2 ^ 55) : ℚ)) : ℝ) ∧
    HasSum (fun k : Nat => ((eventMass (fun v : ℚ => 9 / 10 < v) (k + 1) : ℚ) : ℝ))
      (((1 / 10 - 1 / (5 * 2 ^ 53) : ℚ)) : ℝ) ∧
    ((1 / 10 + 1 / (5 * 2 ^ 55) : ℚ) - (1 / 10 - 1 / (5 * 2 ^ 53)) = 1 / 2 ^ 55) ∧
    ((1 / 10 + 1 / (5 * 2 ^ 55) : ℚ) < 2 * (1 / 10 - 1 / (5 * 2 ^ 53))) := by
  refine ⟨hasSum_below_tenth, hasSum_above_nine_tenths, ?_, ?_⟩
  · norm_num
  · norm_num

end JpegCorrupter
